import Mathlib

/-!
Verification of the retention/deletion engine of go-backup.

This file shallowly embeds the per-database deletion command
(`internal/command/delete.go`, `DeleteCommand.Execute` and
`DeleteCommand.deleteFiles`) together with the pieces of the data model it
needs (`s3.FileInfo`, `config.DeletionRules`, `DeleteStats`,
`DatabaseStats`), and proves the retention-policy properties stated in the
specification against that embedding.

Modelling conventions:
* `time.Time` is modelled as `Int`, measured in days; the Go zero time is
  the integer `0` (`IsZero` becomes `= 0`), and
  `time.Now().AddDate(0, 0, -maxAgeDays)` becomes `now - maxAgeDays`.
  `t1.Before(t2)` becomes `t1 < t2`.
* Go's `sort.Slice` (which is deterministic for a given input slice but not
  stable) is modelled as a stable insertion sort with the same comparison
  `CreatedAt.After`; any two files with distinct timestamps are ordered
  identically by both.
* The two Go maps `filesToDelete`/`filesToRetain` (key → FileInfo) are
  modelled as the `Finset`s of their keys; since the value stored under a
  key is always the unique file with that key, the slices obtained by
  iterating the maps are recovered by filtering the file list on key
  membership.
* `path.Dir` is modelled as "everything before the last `/`, or `.` when
  there is no `/`", which agrees with Go on S3-style keys (no leading
  slash, no `.`/`..` segments, no repeated slashes).
* The S3 `Delete` capability is an oracle `String → Bool` mapping a key to
  whether the delete call succeeds; an execution records the list of keys
  for which `Delete` was invoked, in call order, and the error (the key of
  the failing call) if any.
-/

namespace GoBackup

/-- Go struct `s3.FileInfo`: one stored backup object (key, creation time, size). -/
structure FileInfo where
  key : String
  createdAt : Int
  size : Int
deriving DecidableEq, Repr

/-- Go struct `config.DeletionRules`: the retention policy. -/
structure DeletionRules where
  enabled : Bool
  maxAgeDays : Int
  maxCount : Int
deriving DecidableEq, Repr

/-- The comparison used by `sort.Slice(files, ...CreatedAt.After...)`:
newest first (descending `createdAt`). -/
def byNewest (a b : FileInfo) : Prop := b.createdAt ≤ a.createdAt

instance : DecidableRel byNewest :=
  fun a b => inferInstanceAs (Decidable (b.createdAt ≤ a.createdAt))

instance : IsTotal FileInfo byNewest := ⟨fun a b => le_total b.createdAt a.createdAt⟩

instance : IsTrans FileInfo byNewest := ⟨fun _ _ _ h h2 => le_trans h2 h⟩

/-- Sort files by creation time (newest first), as in
`sort.Slice(files, func(i, j) { return files[i].CreatedAt.After(files[j].CreatedAt) })`. -/
def sortDesc (l : List FileInfo) : List FileInfo := List.insertionSort byNewest l

/-- Characters strictly before the last occurrence of `sep`, or `none` when
`sep` does not occur. -/
def splitLast (sep : Char) : List Char → Option (List Char)
  | [] => none
  | c :: rest =>
    match splitLast sep rest with
    | some tail => some (c :: tail)
    | none => if c = sep then some [] else none

/-- Model of `path.Dir(key)`: the database folder of a key (everything before the
last `/`, or `.` when the key has no `/`). -/
def pathDir (s : String) : String :=
  match splitLast '/' s.data with
  | some ds => String.mk ds
  | none => "."

/-- The distinct database folders appearing in a listing (the key set of
the Go map `dbFiles`). -/
def groupKeys (files : List FileInfo) : List String :=
  (files.map fun f => pathDir f.key).dedup

/-- The files of one database folder, in listing order (the value stored
under `d` in the Go map `dbFiles`). -/
def groupFiles (files : List FileInfo) (d : String) : List FileInfo :=
  files.filter fun f => pathDir f.key = d

/-- The spec's uniqueness invariant: keys are unique within a listing. -/
def keysNodup (files : List FileInfo) : Prop :=
  (files.map fun f => f.key).Nodup

instance : DecidablePred keysNodup :=
  fun l => inferInstanceAs (Decidable (List.map (fun f : FileInfo => f.key) l).Nodup)

/-- The pair of Go maps `filesToDelete` / `filesToRetain`, reduced to their
key sets. -/
structure MarkState where
  toDelete : Finset String
  toRetain : Finset String
deriving DecidableEq

/-- Both maps start empty for each group. -/
def MarkState.empty : MarkState := ⟨∅, ∅⟩

/-- Go expression `cutoffTime := time.Now().AddDate(0, 0, -maxAgeDays)` in day units. -/
def cutoffTime (now maxAgeDays : Int) : Int := now - maxAgeDays

/-- The age-rule loop: each file strictly older than the cutoff goes into
`filesToDelete`, every other file into `filesToRetain`. -/
def ageLoop (cutoff : Int) : List FileInfo → MarkState → MarkState
  | [], st => st
  | f :: rest, st =>
    if f.createdAt < cutoff then
      ageLoop cutoff rest { st with toDelete := insert f.key st.toDelete }
    else
      ageLoop cutoff rest { st with toRetain := insert f.key st.toRetain }

/-- The count-rule loop when the group has more files than `maxCount`:
file at index `i ≥ maxCount` is moved into `filesToDelete` (and removed
from `filesToRetain`), file at index `i < maxCount` is moved into
`filesToRetain` (and removed from `filesToDelete`). -/
def countLoop (maxCount : Int) : Nat → List FileInfo → MarkState → MarkState
  | _, [], st => st
  | i, f :: rest, st =>
    if (i : Int) ≥ maxCount then
      countLoop maxCount (i + 1) rest ⟨insert f.key st.toDelete, st.toRetain.erase f.key⟩
    else
      countLoop maxCount (i + 1) rest ⟨st.toDelete.erase f.key, insert f.key st.toRetain⟩

/-- The count-rule loop when the group has at most `maxCount` files: every
file is moved into `filesToRetain` and removed from `filesToDelete`. -/
def retainAllLoop : List FileInfo → MarkState → MarkState
  | [], st => st
  | f :: rest, st =>
    retainAllLoop rest ⟨st.toDelete.erase f.key, insert f.key st.toRetain⟩

/-- The marking state after the time-based rule: the age loop when
`maxAgeDays > 0`, otherwise both maps still empty. -/
def ageStage (rules : DeletionRules) (now : Int) (files : List FileInfo) : MarkState :=
  if rules.maxAgeDays > 0 then
    ageLoop (cutoffTime now rules.maxAgeDays) (sortDesc files) MarkState.empty
  else MarkState.empty

/-- Per-group classification: sort newest-first, apply the time-based rule
(if `maxAgeDays > 0`), then the count-based rule (if `maxCount > 0`). -/
def classifyGroup (rules : DeletionRules) (now : Int) (files : List FileInfo) : MarkState :=
  if rules.maxCount > 0 then
    if ((sortDesc files).length : Int) > rules.maxCount then
      countLoop rules.maxCount 0 (sortDesc files) (ageStage rules now files)
    else
      retainAllLoop (sortDesc files) (ageStage rules now files)
  else ageStage rules now files

/-- Slice `filesToDeleteSlice` of a group: the files whose key is in the delete
map (the order of Go's map iteration is irrelevant to every consumer). -/
def filesToDeleteSlice (rules : DeletionRules) (now : Int) (files : List FileInfo) :
    List FileInfo :=
  (sortDesc files).filter fun f => f.key ∈ (classifyGroup rules now files).toDelete

/-- Slice `filesToRetainSlice` of a group, after the second sort by creation time
(newest first). -/
def filesToRetainSlice (rules : DeletionRules) (now : Int) (files : List FileInfo) :
    List FileInfo :=
  (sortDesc files).filter fun f => f.key ∈ (classifyGroup rules now files).toRetain

/-- Go struct `DatabaseStats`: per-database statistics. -/
structure DatabaseStats where
  totalFiles : Nat
  deletedFiles : Nat
  retainedFiles : Nat
  deletedSize : Int
  retainedSize : Int
  oldestRetained : Int
  newestRetained : Int
deriving DecidableEq, Repr

/-- The per-database statistics computed inside the group loop of
`DeleteCommand.Execute`. -/
def evalGroupStats (rules : DeletionRules) (now : Int) (files : List FileInfo) :
    DatabaseStats :=
  let del := filesToDeleteSlice rules now files
  let ret := filesToRetainSlice rules now files
  { totalFiles := files.length
    deletedFiles := del.length
    retainedFiles := ret.length
    deletedSize := (del.map fun f => f.size).sum
    retainedSize := (ret.map fun f => f.size).sum
    oldestRetained := match ret.getLast? with | some f => f.createdAt | none => 0
    newestRetained := match ret.head? with | some f => f.createdAt | none => 0 }

/-- Go struct `DeleteStats`: aggregate statistics over all databases. -/
@[ext]
structure DeleteStats where
  totalFiles : Nat
  deletedFiles : Nat
  retainedFiles : Nat
  deletedSize : Int
  retainedSize : Int
  oldestRetained : Int
  newestRetained : Int
deriving DecidableEq, Repr

/-- The zero-valued `DeleteStats` the command starts from. -/
def DeleteStats.zero : DeleteStats := ⟨0, 0, 0, 0, 0, 0, 0⟩

/-- Folding one group's `DatabaseStats` into the aggregate `DeleteStats`:
sums for the counters and sizes, and the `IsZero`-guarded min/max updates
for `OldestRetained`/`NewestRetained` (made only when the group retained at
least one file). -/
def addGroupStats (agg : DeleteStats) (db : DatabaseStats) : DeleteStats :=
  let base : DeleteStats :=
    { totalFiles := agg.totalFiles + db.totalFiles
      deletedFiles := agg.deletedFiles + db.deletedFiles
      retainedFiles := agg.retainedFiles + db.retainedFiles
      deletedSize := agg.deletedSize + db.deletedSize
      retainedSize := agg.retainedSize + db.retainedSize
      oldestRetained := agg.oldestRetained
      newestRetained := agg.newestRetained }
  if db.retainedFiles > 0 then
    { base with
      oldestRetained :=
        if agg.oldestRetained = 0 ∨ db.oldestRetained < agg.oldestRetained then
          db.oldestRetained
        else agg.oldestRetained
      newestRetained :=
        if agg.newestRetained = 0 ∨ db.newestRetained > agg.newestRetained then
          db.newestRetained
        else agg.newestRetained }
  else base

/-- The accumulation loop of `DeleteCommand.Execute` over a list of groups,
starting from a given aggregate. -/
def statsFold (rules : DeletionRules) (now : Int) :
    List (List FileInfo) → DeleteStats → DeleteStats
  | [], agg => agg
  | g :: rest, agg => statsFold rules now rest (addGroupStats agg (evalGroupStats rules now g))

/-- Aggregate statistics over an explicit list of groups, in that
processing order. -/
def aggregateOver (rules : DeletionRules) (now : Int) (gs : List (List FileInfo)) :
    DeleteStats :=
  statsFold rules now gs DeleteStats.zero

/-- The groups of a listing (one per distinct database folder). -/
def groupsOf (files : List FileInfo) : List (List FileInfo) :=
  (groupKeys files).map (groupFiles files)

/-- The pure statistics of one full evaluation of a non-empty listing with
the policy enabled. -/
def evaluateListing (rules : DeletionRules) (now : Int) (files : List FileInfo) :
    DeleteStats :=
  aggregateOver rules now (groupsOf files)

/-- The statistics `DeleteCommand.Execute` reports, including the
`Enabled`/empty-listing early returns. -/
def pureStats (rules : DeletionRules) (now : Int) (files : List FileInfo) : DeleteStats :=
  if rules.enabled = false then DeleteStats.zero
  else if files.length = 0 then DeleteStats.zero
  else evaluateListing rules now files

/-- Go method `DeleteCommand.deleteFiles`: invoke `Delete` per file in order, and
stop at the first failure. Returns the keys for which `Delete` was invoked
(in call order) and the error (the failing key), if any. -/
def deleteFilesRun (oracle : String → Bool) : List FileInfo → List String × Option String
  | [] => ([], none)
  | f :: rest =>
    if oracle f.key then
      let r := deleteFilesRun oracle rest
      (f.key :: r.1, r.2)
    else ([f.key], some f.key)

/-- The per-group loop of `DeleteCommand.Execute`: accumulate the group's
statistics, then (unless dry-run) delete its `filesToDeleteSlice`,
returning immediately with the stats so far when a delete fails. -/
def executeGroups (rules : DeletionRules) (now : Int) (dryRun : Bool)
    (oracle : String → Bool) :
    List (List FileInfo) → DeleteStats → DeleteStats × List String × Option String
  | [], agg => (agg, [], none)
  | g :: rest, agg =>
    let agg2 := addGroupStats agg (evalGroupStats rules now g)
    if dryRun then executeGroups rules now dryRun oracle rest agg2
    else
      let r := deleteFilesRun oracle (filesToDeleteSlice rules now g)
      match r.2 with
      | some e => (agg2, r.1, some e)
      | none =>
        let rr := executeGroups rules now dryRun oracle rest agg2
        (rr.1, r.1 ++ rr.2.1, rr.2.2)

/-- Go method `DeleteCommand.Execute`: the disabled-policy and empty-listing early
returns, then the per-group loop. Returns the final statistics, the keys
for which the storage `Delete` capability was invoked (in order), and the
error, if any. -/
def execute (rules : DeletionRules) (now : Int) (dryRun : Bool) (oracle : String → Bool)
    (files : List FileInfo) : DeleteStats × List String × Option String :=
  if rules.enabled = false then (DeleteStats.zero, [], none)
  else if files.length = 0 then (DeleteStats.zero, [], none)
  else executeGroups rules now dryRun oracle (groupsOf files) DeleteStats.zero

/-! ### Basic facts about the sort and the key list -/

/-- The key list of a list of files. -/
def keyList (files : List FileInfo) : List String := files.map fun f => f.key

theorem sortDesc_perm (l : List FileInfo) : (sortDesc l).Perm l :=
  List.perm_insertionSort byNewest l

theorem sortDesc_sorted (l : List FileInfo) : (sortDesc l).Sorted byNewest :=
  List.sorted_insertionSort byNewest l

theorem mem_sortDesc {l : List FileInfo} {f : FileInfo} : f ∈ sortDesc l ↔ f ∈ l :=
  (sortDesc_perm l).mem_iff

theorem length_sortDesc (l : List FileInfo) : (sortDesc l).length = l.length :=
  (sortDesc_perm l).length_eq

theorem keyList_perm_of_perm {l₁ l₂ : List FileInfo} (h : l₁.Perm l₂) :
    (keyList l₁).Perm (keyList l₂) := h.map _

theorem keysNodup_sortDesc {l : List FileInfo} (h : keysNodup l) :
    (keyList (sortDesc l)).Nodup :=
  (keyList_perm_of_perm (sortDesc_perm l)).nodup_iff.mpr h

theorem mem_keyList {l : List FileInfo} {k : String} :
    k ∈ keyList l ↔ ∃ f ∈ l, f.key = k := by
  simp [keyList]

theorem key_mem_keyList {l : List FileInfo} {f : FileInfo} (h : f ∈ l) :
    f.key ∈ keyList l :=
  mem_keyList.mpr ⟨f, h, rfl⟩

/-- With unique keys, a key determines the file. -/
theorem key_inj {l : List FileInfo} (hnd : (keyList l).Nodup)
    {f g : FileInfo} (hf : f ∈ l) (hg : g ∈ l) (h : f.key = g.key) : f = g :=
  List.inj_on_of_nodup_map hnd hf hg h

/-! ### Membership characterization of the three marking loops -/

theorem ageLoop_toDelete_mem (cutoff : Int) (k : String) (files : List FileInfo) :
    ∀ st : MarkState,
      (k ∈ (ageLoop cutoff files st).toDelete ↔
        k ∈ st.toDelete ∨ ∃ f ∈ files, f.key = k ∧ f.createdAt < cutoff) := by
  induction files with
  | nil => intro st; simp [ageLoop]
  | cons f rest ih =>
    intro st
    by_cases h : f.createdAt < cutoff
    · rw [ageLoop, if_pos h, ih]
      simp only [Finset.mem_insert, List.mem_cons]
      constructor
      · rintro (⟨rfl | hm⟩ | ⟨g, hg, rfl, hold⟩)
        · exact Or.inr ⟨f, Or.inl rfl, rfl, h⟩
        · exact Or.inl hm
        · exact Or.inr ⟨g, Or.inr hg, rfl, hold⟩
      · rintro (hm | ⟨g, hg | hg, rfl, hold⟩)
        · exact Or.inl (Or.inr hm)
        · exact Or.inl (Or.inl (by rw [hg]))
        · exact Or.inr ⟨g, hg, rfl, hold⟩
    · rw [ageLoop, if_neg h, ih]
      simp only [List.mem_cons]
      constructor
      · rintro (hm | ⟨g, hg, rfl, hold⟩)
        · exact Or.inl hm
        · exact Or.inr ⟨g, Or.inr hg, rfl, hold⟩
      · rintro (hm | ⟨g, hg | hg, rfl, hold⟩)
        · exact Or.inl hm
        · exact absurd (hg ▸ hold) h
        · exact Or.inr ⟨g, hg, rfl, hold⟩

theorem ageLoop_toRetain_mem (cutoff : Int) (k : String) (files : List FileInfo) :
    ∀ st : MarkState,
      (k ∈ (ageLoop cutoff files st).toRetain ↔
        k ∈ st.toRetain ∨ ∃ f ∈ files, f.key = k ∧ ¬f.createdAt < cutoff) := by
  induction files with
  | nil => intro st; simp [ageLoop]
  | cons f rest ih =>
    intro st
    by_cases h : f.createdAt < cutoff
    · rw [ageLoop, if_pos h, ih]
      simp only [List.mem_cons]
      constructor
      · rintro (hm | ⟨g, hg, rfl, hold⟩)
        · exact Or.inl hm
        · exact Or.inr ⟨g, Or.inr hg, rfl, hold⟩
      · rintro (hm | ⟨g, hg | hg, rfl, hold⟩)
        · exact Or.inl hm
        · exact absurd (hg ▸ h) hold
        · exact Or.inr ⟨g, hg, rfl, hold⟩
    · rw [ageLoop, if_neg h, ih]
      simp only [Finset.mem_insert, List.mem_cons]
      constructor
      · rintro (⟨rfl | hm⟩ | ⟨g, hg, rfl, hold⟩)
        · exact Or.inr ⟨f, Or.inl rfl, rfl, h⟩
        · exact Or.inl hm
        · exact Or.inr ⟨g, Or.inr hg, rfl, hold⟩
      · rintro (hm | ⟨g, hg | hg, rfl, hold⟩)
        · exact Or.inl (Or.inr hm)
        · exact Or.inl (Or.inl (by rw [hg]))
        · exact Or.inr ⟨g, hg, rfl, hold⟩

theorem retainAllLoop_toRetain_mem (k : String) (files : List FileInfo) :
    ∀ st : MarkState,
      (k ∈ (retainAllLoop files st).toRetain ↔
        k ∈ st.toRetain ∨ k ∈ keyList files) := by
  induction files with
  | nil => intro st; simp [retainAllLoop, keyList]
  | cons f rest ih =>
    intro st
    rw [retainAllLoop, ih]
    simp only [Finset.mem_insert, keyList, List.map_cons, List.mem_cons]
    tauto

theorem retainAllLoop_toDelete_mem (k : String) (files : List FileInfo) :
    ∀ st : MarkState,
      (k ∈ (retainAllLoop files st).toDelete ↔
        k ∈ st.toDelete ∧ k ∉ keyList files) := by
  induction files with
  | nil => intro st; simp [retainAllLoop, keyList]
  | cons f rest ih =>
    intro st
    rw [retainAllLoop, ih]
    simp only [Finset.mem_erase, keyList, List.map_cons, List.mem_cons]
    tauto

theorem countLoop_toDelete_mem (maxCount : Int) (k : String) (files : List FileInfo) :
    ∀ (i : Nat) (st : MarkState), (keyList files).Nodup →
      (k ∈ (countLoop maxCount i files st).toDelete ↔
        k ∈ keyList (files.drop (maxCount - (i : Int)).toNat) ∨
          (k ∈ st.toDelete ∧ k ∉ keyList files)) := by
  induction files with
  | nil => intro i st _; simp [countLoop, keyList]
  | cons f rest ih =>
    intro i st hnd
    simp only [keyList, List.map_cons, List.nodup_cons] at hnd
    obtain ⟨hk, hnd'⟩ := hnd
    by_cases hge : (i : Int) ≥ maxCount
    · have h0 : (maxCount - (i : Int)).toNat = 0 := by omega
      have h1 : (maxCount - ((i + 1 : Nat) : Int)).toNat = 0 := by push_cast; omega
      rw [countLoop, if_pos hge, ih (i + 1) _ hnd', h0, h1, List.drop_zero, List.drop_zero]
      simp only [Finset.mem_insert, keyList, List.map_cons, List.mem_cons]
      tauto
    · have h2 : (maxCount - (i : Int)).toNat = (maxCount - ((i + 1 : Nat) : Int)).toNat + 1 := by
        push_cast; omega
      rw [countLoop, if_neg hge, ih (i + 1) _ hnd', h2, List.drop_succ_cons]
      simp only [Finset.mem_erase, keyList, List.map_cons, List.mem_cons]
      tauto

theorem countLoop_toRetain_mem (maxCount : Int) (k : String) (files : List FileInfo) :
    ∀ (i : Nat) (st : MarkState), (keyList files).Nodup →
      (k ∈ (countLoop maxCount i files st).toRetain ↔
        k ∈ keyList (files.take (maxCount - (i : Int)).toNat) ∨
          (k ∈ st.toRetain ∧ k ∉ keyList files)) := by
  induction files with
  | nil => intro i st _; simp [countLoop, keyList]
  | cons f rest ih =>
    intro i st hnd
    simp only [keyList, List.map_cons, List.nodup_cons] at hnd
    obtain ⟨hk, hnd'⟩ := hnd
    by_cases hge : (i : Int) ≥ maxCount
    · have h0 : (maxCount - (i : Int)).toNat = 0 := by omega
      have h1 : (maxCount - ((i + 1 : Nat) : Int)).toNat = 0 := by push_cast; omega
      rw [countLoop, if_pos hge, ih (i + 1) _ hnd', h0, h1, List.take_zero, List.take_zero]
      simp only [Finset.mem_erase, keyList, List.map_cons, List.mem_cons,
        List.not_mem_nil]
      tauto
    · have h2 : (maxCount - (i : Int)).toNat = (maxCount - ((i + 1 : Nat) : Int)).toNat + 1 := by
        push_cast; omega
      rw [countLoop, if_neg hge, ih (i + 1) _ hnd', h2, List.take_succ_cons]
      simp only [Finset.mem_insert, keyList, List.map_cons, List.mem_cons]
      rcases eq_or_ne k f.key with rfl | hne
      · have hk2 : f.key ∉ List.map (fun f : FileInfo => f.key)
            (List.take (maxCount - ((i + 1 : Nat) : Int)).toNat rest) :=
          fun hx => hk (((List.take_sublist _ _).map _).subset hx)
        tauto
      · tauto

/-! ### Classification per rule configuration -/

theorem ageStage_toDelete_mem (rules : DeletionRules) (now : Int) (files : List FileInfo)
    (k : String) :
    k ∈ (ageStage rules now files).toDelete ↔
      rules.maxAgeDays > 0 ∧
        ∃ f ∈ files, f.key = k ∧ f.createdAt < cutoffTime now rules.maxAgeDays := by
  unfold ageStage
  by_cases ha : rules.maxAgeDays > 0
  · rw [if_pos ha, ageLoop_toDelete_mem]
    simp [MarkState.empty, ha, mem_sortDesc]
  · rw [if_neg ha]
    simp [MarkState.empty, ha]

theorem ageStage_toRetain_mem (rules : DeletionRules) (now : Int) (files : List FileInfo)
    (k : String) :
    k ∈ (ageStage rules now files).toRetain ↔
      rules.maxAgeDays > 0 ∧
        ∃ f ∈ files, f.key = k ∧ ¬f.createdAt < cutoffTime now rules.maxAgeDays := by
  unfold ageStage
  by_cases ha : rules.maxAgeDays > 0
  · rw [if_pos ha, ageLoop_toRetain_mem]
    simp [MarkState.empty, ha, mem_sortDesc]
  · rw [if_neg ha]
    simp [MarkState.empty, ha]

theorem ageStage_toDelete_keys (rules : DeletionRules) (now : Int) (files : List FileInfo)
    (k : String) (h : k ∈ (ageStage rules now files).toDelete) : k ∈ keyList files := by
  rw [ageStage_toDelete_mem] at h
  obtain ⟨-, f, hf, rfl, -⟩ := h
  exact key_mem_keyList hf

theorem ageStage_toRetain_keys (rules : DeletionRules) (now : Int) (files : List FileInfo)
    (k : String) (h : k ∈ (ageStage rules now files).toRetain) : k ∈ keyList files := by
  rw [ageStage_toRetain_mem] at h
  obtain ⟨-, f, hf, rfl, -⟩ := h
  exact key_mem_keyList hf

theorem keyList_sortDesc_mem (files : List FileInfo) (k : String) :
    k ∈ keyList (sortDesc files) ↔ k ∈ keyList files :=
  (keyList_perm_of_perm (sortDesc_perm files)).mem_iff

/-- Neither rule enabled: both maps stay empty (no object is classified). -/
theorem classifyGroup_none (rules : DeletionRules) (now : Int) (files : List FileInfo)
    (ha : rules.maxAgeDays ≤ 0) (hc : rules.maxCount ≤ 0) :
    classifyGroup rules now files = MarkState.empty := by
  have h1 : ¬rules.maxAgeDays > 0 := by omega
  have h2 : ¬rules.maxCount > 0 := by omega
  simp [classifyGroup, ageStage, h1, h2]

/-- Count rule active and the group is larger than `maxCount`: the delete
map holds exactly the keys beyond the first `maxCount` sorted files. -/
theorem classify_count_big_toDelete (rules : DeletionRules) (now : Int)
    (files : List FileInfo) (hc : 0 < rules.maxCount)
    (hlen : (files.length : Int) > rules.maxCount) (hnd : keysNodup files) (k : String) :
    k ∈ (classifyGroup rules now files).toDelete ↔
      k ∈ keyList ((sortDesc files).drop rules.maxCount.toNat) := by
  have hlen' : ((sortDesc files).length : Int) > rules.maxCount := by
    rw [length_sortDesc]; exact hlen
  simp only [classifyGroup, if_pos hc, if_pos hlen']
  rw [countLoop_toDelete_mem rules.maxCount k (sortDesc files) 0 _ (keysNodup_sortDesc hnd)]
  have hcast : ((rules.maxCount : Int) - ((0 : Nat) : Int)).toNat = rules.maxCount.toNat := by
    push_cast; omega
  rw [hcast]
  constructor
  · rintro (h | ⟨hmem, hnot⟩)
    · exact h
    · exact absurd ((keyList_sortDesc_mem files k).mpr
        (ageStage_toDelete_keys rules now files k hmem)) hnot
  · exact Or.inl

/-- Count rule active and the group is larger than `maxCount`: the retain
map holds exactly the keys of the first `maxCount` sorted files. -/
theorem classify_count_big_toRetain (rules : DeletionRules) (now : Int)
    (files : List FileInfo) (hc : 0 < rules.maxCount)
    (hlen : (files.length : Int) > rules.maxCount) (hnd : keysNodup files) (k : String) :
    k ∈ (classifyGroup rules now files).toRetain ↔
      k ∈ keyList ((sortDesc files).take rules.maxCount.toNat) := by
  have hlen' : ((sortDesc files).length : Int) > rules.maxCount := by
    rw [length_sortDesc]; exact hlen
  simp only [classifyGroup, if_pos hc, if_pos hlen']
  rw [countLoop_toRetain_mem rules.maxCount k (sortDesc files) 0 _ (keysNodup_sortDesc hnd)]
  have hcast : ((rules.maxCount : Int) - ((0 : Nat) : Int)).toNat = rules.maxCount.toNat := by
    push_cast; omega
  rw [hcast]
  constructor
  · rintro (h | ⟨hmem, hnot⟩)
    · exact h
    · exact absurd ((keyList_sortDesc_mem files k).mpr
        (ageStage_toRetain_keys rules now files k hmem)) hnot
  · exact Or.inl

/-- Count rule active and the group has at most `maxCount` files: nothing
is marked for deletion. -/
theorem classify_count_small_toDelete (rules : DeletionRules) (now : Int)
    (files : List FileInfo) (hc : 0 < rules.maxCount)
    (hlen : ¬(files.length : Int) > rules.maxCount) (k : String) :
    k ∉ (classifyGroup rules now files).toDelete := by
  have hlen' : ¬((sortDesc files).length : Int) > rules.maxCount := by
    rw [length_sortDesc]; exact hlen
  simp only [classifyGroup, if_pos hc, if_neg hlen']
  rw [retainAllLoop_toDelete_mem]
  rintro ⟨hmem, hnot⟩
  exact hnot ((keyList_sortDesc_mem files k).mpr (ageStage_toDelete_keys rules now files k hmem))

/-- Count rule active and the group has at most `maxCount` files: every key
of the group is marked retained. -/
theorem classify_count_small_toRetain (rules : DeletionRules) (now : Int)
    (files : List FileInfo) (hc : 0 < rules.maxCount)
    (hlen : ¬(files.length : Int) > rules.maxCount) (k : String) :
    k ∈ (classifyGroup rules now files).toRetain ↔ k ∈ keyList files := by
  have hlen' : ¬((sortDesc files).length : Int) > rules.maxCount := by
    rw [length_sortDesc]; exact hlen
  simp only [classifyGroup, if_pos hc, if_neg hlen']
  rw [retainAllLoop_toRetain_mem, keyList_sortDesc_mem]
  constructor
  · rintro (hmem | h)
    · exact ageStage_toRetain_keys rules now files k hmem
    · exact h
  · exact Or.inr

/-- Only the age rule is enabled: a key is marked deleted iff its file is
strictly older than the cutoff. -/
theorem classify_age_only_toDelete (rules : DeletionRules) (now : Int)
    (files : List FileInfo) (ha : 0 < rules.maxAgeDays) (hc : rules.maxCount ≤ 0)
    (k : String) :
    k ∈ (classifyGroup rules now files).toDelete ↔
      ∃ f ∈ files, f.key = k ∧ f.createdAt < cutoffTime now rules.maxAgeDays := by
  have h2 : ¬rules.maxCount > 0 := by omega
  simp only [classifyGroup, if_neg h2]
  rw [ageStage_toDelete_mem]
  simp [ha]

/-- Only the age rule is enabled: a key is marked retained iff its file is
at or after the cutoff. -/
theorem classify_age_only_toRetain (rules : DeletionRules) (now : Int)
    (files : List FileInfo) (ha : 0 < rules.maxAgeDays) (hc : rules.maxCount ≤ 0)
    (k : String) :
    k ∈ (classifyGroup rules now files).toRetain ↔
      ∃ f ∈ files, f.key = k ∧ ¬f.createdAt < cutoffTime now rules.maxAgeDays := by
  have h2 : ¬rules.maxCount > 0 := by omega
  simp only [classifyGroup, if_neg h2]
  rw [ageStage_toRetain_mem]
  simp [ha]

/-! ### The delete/retain slices per rule configuration -/

theorem keyList_take_drop_disjoint (l : List FileInfo) (N : Nat)
    (hnd : (keyList l).Nodup) :
    ∀ k ∈ keyList (l.take N), k ∉ keyList (l.drop N) := by
  have hsplit : keyList (l.take N) ++ keyList (l.drop N) = keyList l := by
    rw [keyList, keyList, keyList, ← List.map_append, List.take_append_drop]
  rw [← hsplit, List.nodup_append] at hnd
  exact fun k hk1 hk2 => hnd.2.2 hk1 hk2

theorem filter_key_mem_right (l₁ l₂ : List FileInfo)
    (hdisj : ∀ k ∈ keyList l₁, k ∉ keyList l₂) :
    ((l₁ ++ l₂).filter fun f => decide (f.key ∈ keyList l₂)) = l₂ := by
  rw [List.filter_append]
  have hA : (l₁.filter fun f => decide (f.key ∈ keyList l₂)) = [] := by
    rw [List.filter_eq_nil_iff]
    intro a ha
    simpa using hdisj a.key (key_mem_keyList ha)
  have hB : (l₂.filter fun f => decide (f.key ∈ keyList l₂)) = l₂ := by
    rw [List.filter_eq_self]
    intro a ha
    simpa using key_mem_keyList ha
  rw [hA, hB, List.nil_append]

theorem filter_key_mem_left (l₁ l₂ : List FileInfo)
    (hdisj : ∀ k ∈ keyList l₁, k ∉ keyList l₂) :
    ((l₁ ++ l₂).filter fun f => decide (f.key ∈ keyList l₁)) = l₁ := by
  rw [List.filter_append]
  have hA : (l₁.filter fun f => decide (f.key ∈ keyList l₁)) = l₁ := by
    rw [List.filter_eq_self]
    intro a ha
    simpa using key_mem_keyList ha
  have hB : (l₂.filter fun f => decide (f.key ∈ keyList l₁)) = [] := by
    rw [List.filter_eq_nil_iff]
    intro a ha
    simpa using fun hx => hdisj a.key hx (key_mem_keyList ha)
  rw [hA, hB, List.append_nil]

theorem filter_key_mem_drop (l : List FileInfo) (N : Nat) (hnd : (keyList l).Nodup) :
    (l.filter fun f => decide (f.key ∈ keyList (l.drop N))) = l.drop N := by
  have hdisj := keyList_take_drop_disjoint l N hnd
  calc (l.filter fun f => decide (f.key ∈ keyList (l.drop N)))
      = ((l.take N ++ l.drop N).filter fun f => decide (f.key ∈ keyList (l.drop N))) := by
        rw [List.take_append_drop]
    _ = l.drop N := filter_key_mem_right _ _ hdisj

theorem filter_key_mem_take (l : List FileInfo) (N : Nat) (hnd : (keyList l).Nodup) :
    (l.filter fun f => decide (f.key ∈ keyList (l.take N))) = l.take N := by
  have hdisj := keyList_take_drop_disjoint l N hnd
  calc (l.filter fun f => decide (f.key ∈ keyList (l.take N)))
      = ((l.take N ++ l.drop N).filter fun f => decide (f.key ∈ keyList (l.take N))) := by
        rw [List.take_append_drop]
    _ = l.take N := filter_key_mem_left _ _ hdisj

theorem deleteSlice_count_big (rules : DeletionRules) (now : Int) (files : List FileInfo)
    (hc : 0 < rules.maxCount) (hlen : (files.length : Int) > rules.maxCount)
    (hnd : keysNodup files) :
    filesToDeleteSlice rules now files = (sortDesc files).drop rules.maxCount.toNat := by
  unfold filesToDeleteSlice
  rw [List.filter_congr fun f _ =>
    decide_eq_decide.mpr (classify_count_big_toDelete rules now files hc hlen hnd f.key)]
  exact filter_key_mem_drop _ _ (keysNodup_sortDesc hnd)

theorem retainSlice_count_big (rules : DeletionRules) (now : Int) (files : List FileInfo)
    (hc : 0 < rules.maxCount) (hlen : (files.length : Int) > rules.maxCount)
    (hnd : keysNodup files) :
    filesToRetainSlice rules now files = (sortDesc files).take rules.maxCount.toNat := by
  unfold filesToRetainSlice
  rw [List.filter_congr fun f _ =>
    decide_eq_decide.mpr (classify_count_big_toRetain rules now files hc hlen hnd f.key)]
  exact filter_key_mem_take _ _ (keysNodup_sortDesc hnd)

theorem deleteSlice_count_small (rules : DeletionRules) (now : Int) (files : List FileInfo)
    (hc : 0 < rules.maxCount) (hlen : ¬(files.length : Int) > rules.maxCount) :
    filesToDeleteSlice rules now files = [] := by
  unfold filesToDeleteSlice
  rw [List.filter_eq_nil_iff]
  intro f _
  simpa using classify_count_small_toDelete rules now files hc hlen f.key

theorem retainSlice_count_small (rules : DeletionRules) (now : Int) (files : List FileInfo)
    (hc : 0 < rules.maxCount) (hlen : ¬(files.length : Int) > rules.maxCount) :
    filesToRetainSlice rules now files = sortDesc files := by
  unfold filesToRetainSlice
  rw [List.filter_eq_self]
  intro f hf
  simpa using (classify_count_small_toRetain rules now files hc hlen f.key).mpr
    (key_mem_keyList (mem_sortDesc.mp hf))

/-- With the count rule active, the retained slice is always the first
`maxCount` files of the sorted group. -/
theorem retainSlice_count (rules : DeletionRules) (now : Int) (files : List FileInfo)
    (hc : 0 < rules.maxCount) (hnd : keysNodup files) :
    filesToRetainSlice rules now files = (sortDesc files).take rules.maxCount.toNat := by
  by_cases hlen : (files.length : Int) > rules.maxCount
  · exact retainSlice_count_big rules now files hc hlen hnd
  · rw [retainSlice_count_small rules now files hc hlen]
    have hle : (sortDesc files).length ≤ rules.maxCount.toNat := by
      rw [length_sortDesc]; omega
    exact (List.take_of_length_le hle).symm

/-- With the count rule active, the deleted slice is always the remainder
beyond the first `maxCount` files of the sorted group. -/
theorem deleteSlice_count (rules : DeletionRules) (now : Int) (files : List FileInfo)
    (hc : 0 < rules.maxCount) (hnd : keysNodup files) :
    filesToDeleteSlice rules now files = (sortDesc files).drop rules.maxCount.toNat := by
  by_cases hlen : (files.length : Int) > rules.maxCount
  · exact deleteSlice_count_big rules now files hc hlen hnd
  · rw [deleteSlice_count_small rules now files hc hlen]
    have hle : (sortDesc files).length ≤ rules.maxCount.toNat := by
      rw [length_sortDesc]; omega
    exact (List.drop_eq_nil_of_le hle).symm

theorem deleteSlice_age_only (rules : DeletionRules) (now : Int) (files : List FileInfo)
    (ha : 0 < rules.maxAgeDays) (hc : rules.maxCount ≤ 0) (hnd : keysNodup files) :
    filesToDeleteSlice rules now files =
      (sortDesc files).filter fun f =>
        decide (f.createdAt < cutoffTime now rules.maxAgeDays) := by
  unfold filesToDeleteSlice
  refine List.filter_congr fun f hf => decide_eq_decide.mpr ?_
  rw [classify_age_only_toDelete rules now files ha hc]
  constructor
  · rintro ⟨g, hg, hkey, hold⟩
    exact key_inj hnd hg (mem_sortDesc.mp hf) hkey ▸ hold
  · intro hold
    exact ⟨f, mem_sortDesc.mp hf, rfl, hold⟩

theorem retainSlice_age_only (rules : DeletionRules) (now : Int) (files : List FileInfo)
    (ha : 0 < rules.maxAgeDays) (hc : rules.maxCount ≤ 0) (hnd : keysNodup files) :
    filesToRetainSlice rules now files =
      (sortDesc files).filter fun f =>
        decide (¬f.createdAt < cutoffTime now rules.maxAgeDays) := by
  unfold filesToRetainSlice
  refine List.filter_congr fun f hf => decide_eq_decide.mpr ?_
  rw [classify_age_only_toRetain rules now files ha hc]
  constructor
  · rintro ⟨g, hg, hkey, hold⟩
    exact key_inj hnd hg (mem_sortDesc.mp hf) hkey ▸ hold
  · intro hold
    exact ⟨f, mem_sortDesc.mp hf, rfl, hold⟩

theorem slices_none (rules : DeletionRules) (now : Int) (files : List FileInfo)
    (ha : rules.maxAgeDays ≤ 0) (hc : rules.maxCount ≤ 0) :
    filesToDeleteSlice rules now files = [] ∧ filesToRetainSlice rules now files = [] := by
  unfold filesToDeleteSlice filesToRetainSlice
  rw [classifyGroup_none rules now files ha hc]
  constructor
  · rw [List.filter_eq_nil_iff]; intro f _; simp [MarkState.empty]
  · rw [List.filter_eq_nil_iff]; intro f _; simp [MarkState.empty]

/-! ### Bounds given by the second sort of the retained slice -/

theorem retainSlice_sorted (rules : DeletionRules) (now : Int) (files : List FileInfo) :
    (filesToRetainSlice rules now files).Sorted byNewest :=
  List.Pairwise.sublist (List.filter_sublist _) (sortDesc_sorted files)

theorem retainSlice_sublist (rules : DeletionRules) (now : Int) (files : List FileInfo) :
    (filesToRetainSlice rules now files).Sublist (sortDesc files) :=
  List.filter_sublist _

theorem deleteSlice_sublist (rules : DeletionRules) (now : Int) (files : List FileInfo) :
    (filesToDeleteSlice rules now files).Sublist (sortDesc files) :=
  List.filter_sublist _

theorem retainSlice_subset (rules : DeletionRules) (now : Int) (files : List FileInfo) :
    ∀ f ∈ filesToRetainSlice rules now files, f ∈ files :=
  fun f hf => mem_sortDesc.mp ((retainSlice_sublist rules now files).subset hf)

theorem deleteSlice_subset (rules : DeletionRules) (now : Int) (files : List FileInfo) :
    ∀ f ∈ filesToDeleteSlice rules now files, f ∈ files :=
  fun f hf => mem_sortDesc.mp ((deleteSlice_sublist rules now files).subset hf)

theorem sorted_head_max (l : List FileInfo) (h : l.Sorted byNewest) (g : FileInfo)
    (hg : l.head? = some g) : ∀ f ∈ l, f.createdAt ≤ g.createdAt := by
  intro f hf
  cases l with
  | nil => simp at hf
  | cons x xs =>
    rw [List.head?_cons, Option.some_inj] at hg
    subst hg
    rw [List.mem_cons] at hf
    rcases hf with rfl | hf
    · exact le_refl _
    · exact List.rel_of_sorted_cons h f hf

theorem sorted_getLast_min (l : List FileInfo) (h : l.Sorted byNewest) (g : FileInfo)
    (hg : l.getLast? = some g) : ∀ f ∈ l, g.createdAt ≤ f.createdAt := by
  induction l with
  | nil => simp at hg
  | cons x xs ih =>
    intro f hf
    cases xs with
    | nil =>
      rw [List.getLast?_singleton, Option.some_inj] at hg
      subst hg
      rw [List.mem_singleton] at hf
      subst hf
      exact le_refl _
    | cons y ys =>
      rw [List.getLast?_cons_cons] at hg
      rw [List.mem_cons] at hf
      rcases hf with rfl | hf
      · exact List.rel_of_sorted_cons h g (List.mem_of_mem_getLast? hg)
      · exact ih (List.Sorted.of_cons h) hg f hf

/-! ### Accessors of the per-group statistics -/

theorem evalGroupStats_totalFiles (rules : DeletionRules) (now : Int)
    (files : List FileInfo) :
    (evalGroupStats rules now files).totalFiles = files.length := rfl

theorem evalGroupStats_deletedFiles (rules : DeletionRules) (now : Int)
    (files : List FileInfo) :
    (evalGroupStats rules now files).deletedFiles =
      (filesToDeleteSlice rules now files).length := rfl

theorem evalGroupStats_retainedFiles (rules : DeletionRules) (now : Int)
    (files : List FileInfo) :
    (evalGroupStats rules now files).retainedFiles =
      (filesToRetainSlice rules now files).length := rfl

theorem evalGroupStats_deletedSize (rules : DeletionRules) (now : Int)
    (files : List FileInfo) :
    (evalGroupStats rules now files).deletedSize =
      ((filesToDeleteSlice rules now files).map fun f => f.size).sum := rfl

theorem evalGroupStats_retainedSize (rules : DeletionRules) (now : Int)
    (files : List FileInfo) :
    (evalGroupStats rules now files).retainedSize =
      ((filesToRetainSlice rules now files).map fun f => f.size).sum := rfl

theorem evalGroupStats_oldestRetained (rules : DeletionRules) (now : Int)
    (files : List FileInfo) :
    (evalGroupStats rules now files).oldestRetained =
      match (filesToRetainSlice rules now files).getLast? with
      | some f => f.createdAt
      | none => 0 := rfl

theorem evalGroupStats_newestRetained (rules : DeletionRules) (now : Int)
    (files : List FileInfo) :
    (evalGroupStats rules now files).newestRetained =
      match (filesToRetainSlice rules now files).head? with
      | some f => f.createdAt
      | none => 0 := rfl

/-- The per-group time bounds: when the retained slice is nonempty, the
stored oldest/newest values are achieved by a retained file and bound every
retained file; when empty they are the zero sentinel. -/
theorem groupStats_time_bounds (rules : DeletionRules) (now : Int)
    (files : List FileInfo) :
    (filesToRetainSlice rules now files = [] →
      (evalGroupStats rules now files).oldestRetained = 0 ∧
      (evalGroupStats rules now files).newestRetained = 0) ∧
    (filesToRetainSlice rules now files ≠ [] →
      (∃ f ∈ filesToRetainSlice rules now files,
        (evalGroupStats rules now files).oldestRetained = f.createdAt) ∧
      (∃ f ∈ filesToRetainSlice rules now files,
        (evalGroupStats rules now files).newestRetained = f.createdAt)) ∧
    (∀ f ∈ filesToRetainSlice rules now files,
      (evalGroupStats rules now files).oldestRetained ≤ f.createdAt ∧
      f.createdAt ≤ (evalGroupStats rules now files).newestRetained) := by
  refine ⟨fun hnil => ?_, fun hne => ?_, fun f hf => ?_⟩
  · rw [evalGroupStats_oldestRetained, evalGroupStats_newestRetained, hnil]
    exact ⟨rfl, rfl⟩
  · obtain ⟨g1, hg1⟩ : ∃ g, (filesToRetainSlice rules now files).getLast? = some g := by
      cases hl : (filesToRetainSlice rules now files).getLast? with
      | none => exact absurd (List.getLast?_eq_none_iff.mp hl) hne
      | some g => exact ⟨g, rfl⟩
    obtain ⟨g2, hg2⟩ : ∃ g, (filesToRetainSlice rules now files).head? = some g := by
      cases hl : (filesToRetainSlice rules now files).head? with
      | none => exact absurd (List.head?_eq_none_iff.mp hl) hne
      | some g => exact ⟨g, rfl⟩
    refine ⟨⟨g1, List.mem_of_mem_getLast? hg1, ?_⟩, ⟨g2, List.mem_of_mem_head? (by simp [hg2]), ?_⟩⟩
    · rw [evalGroupStats_oldestRetained, hg1]
    · rw [evalGroupStats_newestRetained, hg2]
  · have hne : filesToRetainSlice rules now files ≠ [] := by
      intro h; rw [h] at hf; simp at hf
    obtain ⟨g1, hg1⟩ : ∃ g, (filesToRetainSlice rules now files).getLast? = some g := by
      cases hl : (filesToRetainSlice rules now files).getLast? with
      | none => exact absurd (List.getLast?_eq_none_iff.mp hl) hne
      | some g => exact ⟨g, rfl⟩
    obtain ⟨g2, hg2⟩ : ∃ g, (filesToRetainSlice rules now files).head? = some g := by
      cases hl : (filesToRetainSlice rules now files).head? with
      | none => exact absurd (List.head?_eq_none_iff.mp hl) hne
      | some g => exact ⟨g, rfl⟩
    constructor
    · rw [evalGroupStats_oldestRetained, hg1]
      exact sorted_getLast_min _ (retainSlice_sorted rules now files) g1 hg1 f hf
    · rw [evalGroupStats_newestRetained, hg2]
      exact sorted_head_max _ (retainSlice_sorted rules now files) g2 hg2 f hf

/-! ### The aggregate accumulation -/

/-- The Go update `if stats.OldestRetained.IsZero() || db < stats { stats = db }`. -/
def combineOld (a v : Int) : Int := if a = 0 ∨ v < a then v else a

/-- The Go update `if stats.NewestRetained.IsZero() || db > stats { stats = db }`. -/
def combineNew (a v : Int) : Int := if a = 0 ∨ v > a then v else a

theorem addGroupStats_counters (a : DeleteStats) (db : DatabaseStats) :
    (addGroupStats a db).totalFiles = a.totalFiles + db.totalFiles ∧
    (addGroupStats a db).deletedFiles = a.deletedFiles + db.deletedFiles ∧
    (addGroupStats a db).retainedFiles = a.retainedFiles + db.retainedFiles ∧
    (addGroupStats a db).deletedSize = a.deletedSize + db.deletedSize ∧
    (addGroupStats a db).retainedSize = a.retainedSize + db.retainedSize := by
  unfold addGroupStats
  split
  · exact ⟨rfl, rfl, rfl, rfl, rfl⟩
  · exact ⟨rfl, rfl, rfl, rfl, rfl⟩

theorem addGroupStats_oldestRetained (a : DeleteStats) (db : DatabaseStats) :
    (addGroupStats a db).oldestRetained =
      if 0 < db.retainedFiles then combineOld a.oldestRetained db.oldestRetained
      else a.oldestRetained := by
  unfold addGroupStats combineOld
  split
  · rfl
  · rfl

theorem addGroupStats_newestRetained (a : DeleteStats) (db : DatabaseStats) :
    (addGroupStats a db).newestRetained =
      if 0 < db.retainedFiles then combineNew a.newestRetained db.newestRetained
      else a.newestRetained := by
  unfold addGroupStats combineNew
  split
  · rfl
  · rfl

theorem statsFold_counters (rules : DeletionRules) (now : Int) (gs : List (List FileInfo)) :
    ∀ agg : DeleteStats,
      (statsFold rules now gs agg).totalFiles =
        agg.totalFiles + ((gs.map fun g => (evalGroupStats rules now g).totalFiles).sum) ∧
      (statsFold rules now gs agg).deletedFiles =
        agg.deletedFiles + ((gs.map fun g => (evalGroupStats rules now g).deletedFiles).sum) ∧
      (statsFold rules now gs agg).retainedFiles =
        agg.retainedFiles + ((gs.map fun g => (evalGroupStats rules now g).retainedFiles).sum) ∧
      (statsFold rules now gs agg).deletedSize =
        agg.deletedSize + ((gs.map fun g => (evalGroupStats rules now g).deletedSize).sum) ∧
      (statsFold rules now gs agg).retainedSize =
        agg.retainedSize + ((gs.map fun g => (evalGroupStats rules now g).retainedSize).sum) := by
  induction gs with
  | nil => intro agg; simp [statsFold]
  | cons g rest ih =>
    intro agg
    obtain ⟨h1, h2, h3, h4, h5⟩ := ih (addGroupStats agg (evalGroupStats rules now g))
    obtain ⟨c1, c2, c3, c4, c5⟩ := addGroupStats_counters agg (evalGroupStats rules now g)
    rw [statsFold]
    refine ⟨?_, ?_, ?_, ?_, ?_⟩
    · rw [h1, c1]; simp [List.map_cons, List.sum_cons]; omega
    · rw [h2, c2]; simp [List.map_cons, List.sum_cons]; omega
    · rw [h3, c3]; simp [List.map_cons, List.sum_cons]; omega
    · rw [h4, c4]; simp [List.map_cons, List.sum_cons]; omega
    · rw [h5, c5]; simp [List.map_cons, List.sum_cons]; omega

/-- The per-group oldest-retained values of the groups that retained at
least one file, in processing order. -/
def groupOlds (rules : DeletionRules) (now : Int) (gs : List (List FileInfo)) : List Int :=
  ((gs.map fun g => evalGroupStats rules now g).filter fun db =>
    0 < db.retainedFiles).map fun db => db.oldestRetained

/-- The per-group newest-retained values of the groups that retained at
least one file, in processing order. -/
def groupNews (rules : DeletionRules) (now : Int) (gs : List (List FileInfo)) : List Int :=
  ((gs.map fun g => evalGroupStats rules now g).filter fun db =>
    0 < db.retainedFiles).map fun db => db.newestRetained

theorem statsFold_oldestRetained (rules : DeletionRules) (now : Int)
    (gs : List (List FileInfo)) :
    ∀ agg : DeleteStats,
      (statsFold rules now gs agg).oldestRetained =
        (groupOlds rules now gs).foldl combineOld agg.oldestRetained := by
  induction gs with
  | nil => intro agg; simp [statsFold, groupOlds]
  | cons g rest ih =>
    intro agg
    rw [statsFold, ih (addGroupStats agg (evalGroupStats rules now g))]
    by_cases h : 0 < (evalGroupStats rules now g).retainedFiles
    · have : groupOlds rules now (g :: rest) =
          (evalGroupStats rules now g).oldestRetained :: groupOlds rules now rest := by
        simp only [groupOlds, List.map_cons]
        rw [List.filter_cons_of_pos (by simpa using h), List.map_cons]
      rw [this, List.foldl_cons, addGroupStats_oldestRetained, if_pos h]
    · have : groupOlds rules now (g :: rest) = groupOlds rules now rest := by
        simp only [groupOlds, List.map_cons]
        rw [List.filter_cons_of_neg (by simpa using h)]
      rw [this, addGroupStats_oldestRetained, if_neg h]

theorem statsFold_newestRetained (rules : DeletionRules) (now : Int)
    (gs : List (List FileInfo)) :
    ∀ agg : DeleteStats,
      (statsFold rules now gs agg).newestRetained =
        (groupNews rules now gs).foldl combineNew agg.newestRetained := by
  induction gs with
  | nil => intro agg; simp [statsFold, groupNews]
  | cons g rest ih =>
    intro agg
    rw [statsFold, ih (addGroupStats agg (evalGroupStats rules now g))]
    by_cases h : 0 < (evalGroupStats rules now g).retainedFiles
    · have : groupNews rules now (g :: rest) =
          (evalGroupStats rules now g).newestRetained :: groupNews rules now rest := by
        simp only [groupNews, List.map_cons]
        rw [List.filter_cons_of_pos (by simpa using h), List.map_cons]
      rw [this, List.foldl_cons, addGroupStats_newestRetained, if_pos h]
    · have : groupNews rules now (g :: rest) = groupNews rules now rest := by
        simp only [groupNews, List.map_cons]
        rw [List.filter_cons_of_neg (by simpa using h)]
      rw [this, addGroupStats_newestRetained, if_neg h]

/-! ### The sentinel-guarded min/max folds, under positive timestamps -/

theorem combineOld_zero (v : Int) : combineOld 0 v = v := by
  unfold combineOld
  rw [if_pos (Or.inl rfl)]

theorem combineNew_zero (v : Int) : combineNew 0 v = v := by
  unfold combineNew
  rw [if_pos (Or.inl rfl)]

theorem combineOld_of_pos (a v : Int) (ha : 0 < a) : combineOld a v = min a v := by
  unfold combineOld
  by_cases h : v < a
  · rw [if_pos (Or.inr h), min_eq_right (le_of_lt h)]
  · rw [if_neg (by push_neg; exact ⟨by omega, by omega⟩), min_eq_left (by omega)]

theorem combineNew_of_pos (a v : Int) (ha : 0 < a) : combineNew a v = max a v := by
  unfold combineNew
  by_cases h : v > a
  · rw [if_pos (Or.inr h), max_eq_right (le_of_lt h)]
  · rw [if_neg (by push_neg; exact ⟨by omega, by omega⟩), max_eq_left (by omega)]

theorem foldl_min_le_init (vs : List Int) : ∀ a : Int, vs.foldl min a ≤ a := by
  induction vs with
  | nil => intro a; simp
  | cons v rest ih =>
    intro a
    rw [List.foldl_cons]
    exact le_trans (ih (min a v)) (min_le_left a v)

theorem foldl_min_le_mem (vs : List Int) : ∀ a : Int, ∀ v ∈ vs, vs.foldl min a ≤ v := by
  induction vs with
  | nil => intro a v hv; simp at hv
  | cons w rest ih =>
    intro a v hv
    rw [List.mem_cons] at hv
    rw [List.foldl_cons]
    rcases hv with rfl | hv
    · exact le_trans (foldl_min_le_init rest (min a v)) (min_le_right a v)
    · exact ih (min a w) v hv

theorem foldl_min_mem (vs : List Int) : ∀ a : Int, vs.foldl min a = a ∨ vs.foldl min a ∈ vs := by
  induction vs with
  | nil => intro a; simp
  | cons v rest ih =>
    intro a
    rw [List.foldl_cons]
    rcases ih (min a v) with h | h
    · rw [h]
      rcases min_choice a v with h2 | h2

      · exact Or.inl h2
      · exact Or.inr (by rw [h2]; exact List.mem_cons_self v rest)
    · exact Or.inr (List.mem_cons_of_mem v h)

theorem foldl_max_ge_init (vs : List Int) : ∀ a : Int, a ≤ vs.foldl max a := by
  induction vs with
  | nil => intro a; simp
  | cons v rest ih =>
    intro a
    rw [List.foldl_cons]
    exact le_trans (le_max_left a v) (ih (max a v))

theorem foldl_max_ge_mem (vs : List Int) : ∀ a : Int, ∀ v ∈ vs, v ≤ vs.foldl max a := by
  induction vs with
  | nil => intro a v hv; simp at hv
  | cons w rest ih =>
    intro a v hv
    rw [List.mem_cons] at hv
    rw [List.foldl_cons]
    rcases hv with rfl | hv
    · exact le_trans (le_max_right a v) (foldl_max_ge_init rest (max a v))
    · exact ih (max a w) v hv

theorem foldl_max_mem (vs : List Int) : ∀ a : Int, vs.foldl max a = a ∨ vs.foldl max a ∈ vs := by
  induction vs with
  | nil => intro a; simp
  | cons v rest ih =>
    intro a
    rw [List.foldl_cons]
    rcases ih (max a v) with h | h
    · rw [h]
      rcases max_choice a v with h2 | h2
      · exact Or.inl h2
      · exact Or.inr (by rw [h2]; exact List.mem_cons_self v rest)
    · exact Or.inr (List.mem_cons_of_mem v h)

theorem foldl_combineOld_eq_min (vs : List Int) :
    ∀ a : Int, 0 < a → (∀ v ∈ vs, 0 < v) → vs.foldl combineOld a = vs.foldl min a := by
  induction vs with
  | nil => intro a _ _; rfl
  | cons v rest ih =>
    intro a ha hvs
    rw [List.foldl_cons, List.foldl_cons, combineOld_of_pos a v ha]
    have hv : 0 < v := hvs v (List.mem_cons_self v rest)
    exact ih (min a v) (lt_min ha hv) fun w hw => hvs w (List.mem_cons_of_mem v hw)

theorem foldl_combineNew_eq_max (vs : List Int) :
    ∀ a : Int, 0 < a → (∀ v ∈ vs, 0 < v) → vs.foldl combineNew a = vs.foldl max a := by
  induction vs with
  | nil => intro a _ _; rfl
  | cons v rest ih =>
    intro a ha hvs
    rw [List.foldl_cons, List.foldl_cons, combineNew_of_pos a v ha]
    have hv : 0 < v := hvs v (List.mem_cons_self v rest)
    exact ih (max a v) (lt_max_of_lt_left ha) fun w hw => hvs w (List.mem_cons_of_mem v hw)

/-- The sentinel-started fold computes the minimum of a nonempty list of
positive values, and the sentinel itself on the empty list. -/
theorem foldl_combineOld_spec (vals : List Int) (h : ∀ v ∈ vals, 0 < v) :
    (vals = [] → vals.foldl combineOld 0 = 0) ∧
    (vals ≠ [] →
      vals.foldl combineOld 0 ∈ vals ∧ ∀ v ∈ vals, vals.foldl combineOld 0 ≤ v) := by
  cases vals with
  | nil => exact ⟨fun _ => rfl, fun hne => absurd rfl hne⟩
  | cons v rest =>
    refine ⟨fun heq => by simp at heq, fun _ => ?_⟩
    have hv : 0 < v := h v (List.mem_cons_self v rest)
    have hrest : ∀ w ∈ rest, 0 < w := fun w hw => h w (List.mem_cons_of_mem v hw)
    rw [List.foldl_cons, combineOld_zero, foldl_combineOld_eq_min rest v hv hrest]
    constructor
    · rcases foldl_min_mem rest v with h2 | h2
      · rw [h2]; exact List.mem_cons_self v rest
      · exact List.mem_cons_of_mem v h2
    · intro w hw
      rw [List.mem_cons] at hw
      rcases hw with rfl | hw
      · exact foldl_min_le_init rest w
      · exact foldl_min_le_mem rest v w hw

/-- The sentinel-started fold computes the maximum of a nonempty list of
positive values, and the sentinel itself on the empty list. -/
theorem foldl_combineNew_spec (vals : List Int) (h : ∀ v ∈ vals, 0 < v) :
    (vals = [] → vals.foldl combineNew 0 = 0) ∧
    (vals ≠ [] →
      vals.foldl combineNew 0 ∈ vals ∧ ∀ v ∈ vals, v ≤ vals.foldl combineNew 0) := by
  cases vals with
  | nil => exact ⟨fun _ => rfl, fun hne => absurd rfl hne⟩
  | cons v rest =>
    refine ⟨fun heq => by simp at heq, fun _ => ?_⟩
    have hv : 0 < v := h v (List.mem_cons_self v rest)
    have hrest : ∀ w ∈ rest, 0 < w := fun w hw => h w (List.mem_cons_of_mem v hw)
    rw [List.foldl_cons, combineNew_zero, foldl_combineNew_eq_max rest v hv hrest]
    constructor
    · rcases foldl_max_mem rest v with h2 | h2
      · rw [h2]; exact List.mem_cons_self v rest
      · exact List.mem_cons_of_mem v h2
    · intro w hw
      rw [List.mem_cons] at hw
      rcases hw with rfl | hw
      · exact foldl_max_ge_init rest w
      · exact foldl_max_ge_mem rest v w hw

/-! ### Groups of a listing -/

theorem groupFiles_subset (files : List FileInfo) (d : String) :
    ∀ f ∈ groupFiles files d, f ∈ files :=
  fun _ hf => List.mem_of_mem_filter hf

theorem mem_groupsOf (files : List FileInfo) (g : List FileInfo) :
    g ∈ groupsOf files ↔ ∃ d ∈ groupKeys files, groupFiles files d = g := by
  simp [groupsOf]

theorem groupsOf_files_subset (files : List FileInfo) :
    ∀ g ∈ groupsOf files, ∀ f ∈ g, f ∈ files := by
  intro g hg f hf
  obtain ⟨d, -, rfl⟩ := (mem_groupsOf files g).mp hg
  exact groupFiles_subset files d f hf

theorem keysNodup_groupFiles (files : List FileInfo) (d : String) (hnd : keysNodup files) :
    keysNodup (groupFiles files d) :=
  List.Nodup.sublist ((List.filter_sublist files).map _) hnd

theorem groupOlds_pos (rules : DeletionRules) (now : Int) (files : List FileInfo)
    (hpos : ∀ f ∈ files, 0 < f.createdAt) :
    ∀ v ∈ groupOlds rules now (groupsOf files), 0 < v := by
  intro v hv
  simp only [groupOlds, List.mem_map, List.mem_filter] at hv
  obtain ⟨db, ⟨hdbm, hdbpos⟩, rfl⟩ := hv
  obtain ⟨g, hg, rfl⟩ := hdbm
  have hne : filesToRetainSlice rules now g ≠ [] := by
    rw [decide_eq_true_eq, evalGroupStats_retainedFiles] at hdbpos
    intro h
    rw [h] at hdbpos
    simp at hdbpos
  obtain ⟨-, hex, -⟩ := groupStats_time_bounds rules now g
  obtain ⟨⟨f, hfm, hfo⟩, -⟩ := hex hne
  rw [hfo]
  exact hpos f (groupsOf_files_subset files g hg f (retainSlice_subset rules now g f hfm))

theorem groupNews_pos (rules : DeletionRules) (now : Int) (files : List FileInfo)
    (hpos : ∀ f ∈ files, 0 < f.createdAt) :
    ∀ v ∈ groupNews rules now (groupsOf files), 0 < v := by
  intro v hv
  simp only [groupNews, List.mem_map, List.mem_filter] at hv
  obtain ⟨db, ⟨hdbm, hdbpos⟩, rfl⟩ := hv
  obtain ⟨g, hg, rfl⟩ := hdbm
  have hne : filesToRetainSlice rules now g ≠ [] := by
    rw [decide_eq_true_eq, evalGroupStats_retainedFiles] at hdbpos
    intro h
    rw [h] at hdbpos
    simp at hdbpos
  obtain ⟨-, hex, -⟩ := groupStats_time_bounds rules now g
  obtain ⟨-, f, hfm, hfo⟩ := hex hne
  rw [hfo]
  exact hpos f (groupsOf_files_subset files g hg f (retainSlice_subset rules now g f hfm))

/-! ### The deletion executor -/

theorem deleteFilesRun_none (oracle : String → Bool) (fs : List FileInfo) :
    (deleteFilesRun oracle fs).2 = none →
      (deleteFilesRun oracle fs).1 = keyList fs ∧ ∀ k ∈ keyList fs, oracle k = true := by
  induction fs with
  | nil => intro _; exact ⟨rfl, by simp [keyList]⟩
  | cons f rest ih =>
    intro h
    by_cases ho : oracle f.key = true
    · simp only [deleteFilesRun, if_pos ho] at h ⊢
      obtain ⟨h1, h2⟩ := ih h
      refine ⟨by rw [h1]; rfl, ?_⟩
      intro k hk
      simp only [keyList, List.map_cons, List.mem_cons] at hk
      rcases hk with rfl | hk
      · exact ho
      · exact h2 k hk
    · simp only [deleteFilesRun, if_neg ho] at h
      exact absurd h (by simp)

theorem deleteFilesRun_some (oracle : String → Bool) (fs : List FileInfo) (e : String) :
    (deleteFilesRun oracle fs).2 = some e →
      oracle e = false ∧
      ∃ calls1, (deleteFilesRun oracle fs).1 = calls1 ++ [e] ∧
        ∀ k ∈ calls1, oracle k = true := by
  induction fs with
  | nil => intro h; simp [deleteFilesRun] at h
  | cons f rest ih =>
    intro h
    by_cases ho : oracle f.key = true
    · simp only [deleteFilesRun, if_pos ho] at h ⊢
      obtain ⟨hfalse, calls1, hcalls, hall⟩ := ih h
      refine ⟨hfalse, f.key :: calls1, ?_, ?_⟩
      · rw [hcalls]; rfl
      · intro k hk
        rw [List.mem_cons] at hk
        rcases hk with rfl | hk
        · exact ho
        · exact hall k hk
    · simp only [deleteFilesRun, if_neg ho] at h ⊢
      obtain rfl : f.key = e := by simpa using h
      exact ⟨by simpa using ho, [], rfl, by simp⟩

theorem executeGroups_dryRun (rules : DeletionRules) (now : Int) (oracle : String → Bool)
    (gs : List (List FileInfo)) :
    ∀ agg : DeleteStats,
      executeGroups rules now true oracle gs agg = (statsFold rules now gs agg, [], none) := by
  induction gs with
  | nil => intro agg; rfl
  | cons g rest ih =>
    intro agg
    simp only [executeGroups, if_pos rfl, statsFold]
    exact ih (addGroupStats agg (evalGroupStats rules now g))

theorem executeGroups_cons_live (rules : DeletionRules) (now : Int) (oracle : String → Bool)
    (g : List FileInfo) (rest : List (List FileInfo)) (agg : DeleteStats) :
    executeGroups rules now false oracle (g :: rest) agg =
      match (deleteFilesRun oracle (filesToDeleteSlice rules now g)).2 with
      | some e => (addGroupStats agg (evalGroupStats rules now g),
          (deleteFilesRun oracle (filesToDeleteSlice rules now g)).1, some e)
      | none =>
        ((executeGroups rules now false oracle rest
            (addGroupStats agg (evalGroupStats rules now g))).1,
          (deleteFilesRun oracle (filesToDeleteSlice rules now g)).1 ++
            (executeGroups rules now false oracle rest
              (addGroupStats agg (evalGroupStats rules now g))).2.1,
          (executeGroups rules now false oracle rest
            (addGroupStats agg (evalGroupStats rules now g))).2.2) := rfl

theorem executeGroups_cons_fail (rules : DeletionRules) (now : Int) (oracle : String → Bool)
    (g : List FileInfo) (rest : List (List FileInfo)) (agg : DeleteStats) (e : String)
    (hr : (deleteFilesRun oracle (filesToDeleteSlice rules now g)).2 = some e) :
    executeGroups rules now false oracle (g :: rest) agg =
      (addGroupStats agg (evalGroupStats rules now g),
        (deleteFilesRun oracle (filesToDeleteSlice rules now g)).1, some e) := by
  rw [executeGroups_cons_live, hr]

theorem executeGroups_cons_ok (rules : DeletionRules) (now : Int) (oracle : String → Bool)
    (g : List FileInfo) (rest : List (List FileInfo)) (agg : DeleteStats)
    (hr : (deleteFilesRun oracle (filesToDeleteSlice rules now g)).2 = none) :
    executeGroups rules now false oracle (g :: rest) agg =
      ((executeGroups rules now false oracle rest
          (addGroupStats agg (evalGroupStats rules now g))).1,
        (deleteFilesRun oracle (filesToDeleteSlice rules now g)).1 ++
          (executeGroups rules now false oracle rest
            (addGroupStats agg (evalGroupStats rules now g))).2.1,
        (executeGroups rules now false oracle rest
          (addGroupStats agg (evalGroupStats rules now g))).2.2) := by
  rw [executeGroups_cons_live, hr]

/-- After the first failing delete call, the run stops: the invoked calls
are the successful ones followed by the single failing key, and the stats
are the fold over the groups processed so far. -/
theorem executeGroups_error (rules : DeletionRules) (now : Int) (oracle : String → Bool)
    (gs : List (List FileInfo)) :
    ∀ (agg : DeleteStats) (e : String),
      (executeGroups rules now false oracle gs agg).2.2 = some e →
        oracle e = false ∧
        (executeGroups rules now false oracle gs agg).2.1.getLast? = some e ∧
        (∀ k ∈ (executeGroups rules now false oracle gs agg).2.1.dropLast, oracle k = true) ∧
        ∃ p g q, gs = p ++ g :: q ∧
          (executeGroups rules now false oracle gs agg).1 =
            statsFold rules now (p ++ [g]) agg := by
  induction gs with
  | nil => intro agg e h; simp [executeGroups] at h
  | cons g rest ih =>
    intro agg e h
    cases hr : (deleteFilesRun oracle (filesToDeleteSlice rules now g)).2 with
    | some e2 =>
      rw [executeGroups_cons_fail rules now oracle g rest agg e2 hr] at h ⊢
      dsimp only at h ⊢
      obtain rfl : e2 = e := by simpa using h
      obtain ⟨hfalse, calls1, hcalls, hall⟩ :=
        deleteFilesRun_some oracle (filesToDeleteSlice rules now g) e2 hr
      refine ⟨hfalse, ?_, ?_, [], g, rest, rfl, rfl⟩
      · simp [hcalls]
      · intro k hk
        rw [hcalls] at hk
        simp only [List.dropLast_concat] at hk
        exact hall k hk
    | none =>
      rw [executeGroups_cons_ok rules now oracle g rest agg hr] at h ⊢
      dsimp only at h ⊢
      obtain ⟨h1, h2, h3, p, g2, q, hsplit, hstats⟩ :=
        ih (addGroupStats agg (evalGroupStats rules now g)) e h
      have hne : (executeGroups rules now false oracle rest
          (addGroupStats agg (evalGroupStats rules now g))).2.1 ≠ [] := by
        intro hx
        rw [hx] at h2
        simp at h2
      obtain ⟨hok, hallok⟩ := deleteFilesRun_none oracle (filesToDeleteSlice rules now g) hr
      refine ⟨h1, ?_, ?_, g :: p, g2, q, by rw [hsplit, List.cons_append], ?_⟩
      · rw [List.getLast?_append_of_ne_nil _ hne]
        exact h2
      · intro k hk
        rw [List.dropLast_append_of_ne_nil _ hne, List.mem_append] at hk
        rcases hk with hk | hk
        · exact hallok k (hok ▸ hk)
        · exact h3 k hk
      · rw [List.cons_append, statsFold]
        exact hstats

theorem executeGroups_no_deletes (rules : DeletionRules) (now : Int) (oracle : String → Bool)
    (gs : List (List FileInfo)) (hempty : ∀ g ∈ gs, filesToDeleteSlice rules now g = []) :
    ∀ agg : DeleteStats,
      executeGroups rules now false oracle gs agg = (statsFold rules now gs agg, [], none) := by
  induction gs with
  | nil => intro agg; rfl
  | cons g rest ih =>
    intro agg
    have hr : (deleteFilesRun oracle (filesToDeleteSlice rules now g)).2 = none := by
      rw [hempty g (List.mem_cons_self g rest)]
      rfl
    have hr1 : (deleteFilesRun oracle (filesToDeleteSlice rules now g)).1 = [] := by
      rw [hempty g (List.mem_cons_self g rest)]
      rfl
    rw [executeGroups_cons_ok rules now oracle g rest agg hr,
      ih (fun g2 hg2 => hempty g2 (List.mem_cons_of_mem g hg2)), hr1, statsFold]
    rfl

theorem execute_empty (rules : DeletionRules) (now : Int) (dryRun : Bool)
    (oracle : String → Bool) :
    execute rules now dryRun oracle [] = (DeleteStats.zero, [], none) := by
  unfold execute
  by_cases h1 : rules.enabled = false
  · rw [if_pos h1]
  · rw [if_neg h1]
    simp

/-! ### Claim theorems -/

/-- C6: for every input listing, policy, and delete oracle, when the
dry-run flag is set the run never invokes the storage delete capability
(its call list is empty) and returns exactly the stats the pure evaluator
produces, with no error. -/
theorem dry_run_never_deletes (rules : DeletionRules) (now : Int) (oracle : String → Bool)
    (files : List FileInfo) :
    execute rules now true oracle files = (pureStats rules now files, [], none) := by
  unfold execute pureStats
  by_cases h1 : rules.enabled = false
  · rw [if_pos h1, if_pos h1]
  · rw [if_neg h1, if_neg h1]
    by_cases h2 : files.length = 0
    · rw [if_pos h2, if_pos h2]
    · rw [if_neg h2, if_neg h2, executeGroups_dryRun]
      rfl

/-- C8: if the policy's enabled flag is false, the run performs no
deletions and returns the zero statistics (in particular `deletedFiles = 0`
and an empty call list) with no error, for every listing, time, dry-run
flag and oracle. -/
theorem disabled_policy_noop (rules : DeletionRules) (now : Int) (dryRun : Bool)
    (oracle : String → Bool) (files : List FileInfo) (h : rules.enabled = false) :
    execute rules now dryRun oracle files = (DeleteStats.zero, [], none) := by
  unfold execute
  rw [if_pos h]

/-- Witness for C8 at a concrete disabled policy and non-empty listing. -/
theorem disabled_policy_noop_witness :
    (DeletionRules.mk false 30 3).enabled = false ∧
    execute (DeletionRules.mk false 30 3) 100 false (fun _ => true)
        [FileInfo.mk "db/a" 50 7] = (DeleteStats.zero, [], none) :=
  ⟨rfl, disabled_policy_noop (DeletionRules.mk false 30 3) 100 false (fun _ => true)
    [FileInfo.mk "db/a" 50 7] rfl⟩

/-- C1: with both rules enabled, the count rule is authoritative: the
retained slice is exactly the first `maxCount` files of the group sorted
newest-first (overriding any age marks), the deleted slice is exactly the
rest, and a single-object group is always fully retained. -/
theorem count_rule_overrides_age (rules : DeletionRules) (now : Int) (files : List FileInfo)
    (ha : 0 < rules.maxAgeDays) (hc : 0 < rules.maxCount) (hnd : keysNodup files) :
    filesToRetainSlice rules now files = (sortDesc files).take rules.maxCount.toNat ∧
    filesToDeleteSlice rules now files = (sortDesc files).drop rules.maxCount.toNat ∧
    (∀ f : FileInfo, files = [f] →
      filesToRetainSlice rules now files = [f] ∧ filesToDeleteSlice rules now files = []) := by
  refine ⟨retainSlice_count rules now files hc hnd, deleteSlice_count rules now files hc hnd, ?_⟩
  rintro f rfl
  have h1 : sortDesc [f] = [f] := rfl
  constructor
  · rw [retainSlice_count rules now [f] hc hnd, h1]
    exact List.take_of_length_le (by simp; omega)
  · rw [deleteSlice_count rules now [f] hc hnd, h1]
    exact List.drop_eq_nil_of_le (by simp; omega)

/-- Witness for C1: `maxAgeDays = 30`, `maxCount = 2`, `now = 100`; the
second-newest file (created 50, i.e. older than the cutoff 70) is still
retained because it is within the top 2. -/
theorem count_rule_overrides_age_witness :
    (0 : Int) < 30 ∧ (0 : Int) < 2 ∧
    keysNodup [FileInfo.mk "db/a" 90 1, FileInfo.mk "db/b" 50 2, FileInfo.mk "db/c" 10 3] ∧
    filesToRetainSlice (DeletionRules.mk true 30 2) 100
        [FileInfo.mk "db/a" 90 1, FileInfo.mk "db/b" 50 2, FileInfo.mk "db/c" 10 3] =
      [FileInfo.mk "db/a" 90 1, FileInfo.mk "db/b" 50 2] ∧
    filesToDeleteSlice (DeletionRules.mk true 30 2) 100
        [FileInfo.mk "db/a" 90 1, FileInfo.mk "db/b" 50 2, FileInfo.mk "db/c" 10 3] =
      [FileInfo.mk "db/c" 10 3] := by
  refine ⟨by decide, by decide, by decide, ?_, ?_⟩
  · rw [(count_rule_overrides_age (DeletionRules.mk true 30 2) 100
      [FileInfo.mk "db/a" 90 1, FileInfo.mk "db/b" 50 2, FileInfo.mk "db/c" 10 3]
      (by decide) (by decide) (by decide)).1]
    decide
  · rw [(count_rule_overrides_age (DeletionRules.mk true 30 2) 100
      [FileInfo.mk "db/a" 90 1, FileInfo.mk "db/b" 50 2, FileInfo.mk "db/c" 10 3]
      (by decide) (by decide) (by decide)).2.1]
    decide

/-- C3: with only the count rule enabled (`maxCount = N > 0`,
`maxAgeDays ≤ 0`) and `M` objects, exactly `max(0, M - N)` objects are
deleted (`Nat` subtraction), the retained slice is the first `N` files of
the sorted group, and every retained file is at least as recent as every
deleted file. -/
theorem count_only_rule_spec (rules : DeletionRules) (now : Int) (files : List FileInfo)
    (hc : 0 < rules.maxCount) (ha : rules.maxAgeDays ≤ 0) (hnd : keysNodup files) :
    (filesToDeleteSlice rules now files).length = files.length - rules.maxCount.toNat ∧
    filesToRetainSlice rules now files = (sortDesc files).take rules.maxCount.toNat ∧
    (∀ fd ∈ filesToDeleteSlice rules now files, ∀ fr ∈ filesToRetainSlice rules now files,
      fd.createdAt ≤ fr.createdAt) := by
  have hdel := deleteSlice_count rules now files hc hnd
  have hret := retainSlice_count rules now files hc hnd
  refine ⟨?_, hret, ?_⟩
  · rw [hdel, List.length_drop, length_sortDesc]
  · intro fd hfd fr hfr
    rw [hdel] at hfd
    rw [hret] at hfr
    have hps : ((sortDesc files).take rules.maxCount.toNat ++
        (sortDesc files).drop rules.maxCount.toNat).Pairwise byNewest := by
      rw [List.take_append_drop]
      exact sortDesc_sorted files
    exact (List.pairwise_append.mp hps).2.2 fr hfr fd hfd

/-- Witness for C3: `maxCount = 2`, age rule disabled, 3 files: exactly 1
deleted and the 2 newest retained. -/
theorem count_only_rule_spec_witness :
    (0 : Int) < 2 ∧ (0 : Int) ≤ 0 ∧
    keysNodup [FileInfo.mk "db/a" 10 1, FileInfo.mk "db/b" 90 2, FileInfo.mk "db/c" 50 3] ∧
    (filesToDeleteSlice (DeletionRules.mk true 0 2) 100
        [FileInfo.mk "db/a" 10 1, FileInfo.mk "db/b" 90 2, FileInfo.mk "db/c" 50 3]).length = 1 ∧
    filesToRetainSlice (DeletionRules.mk true 0 2) 100
        [FileInfo.mk "db/a" 10 1, FileInfo.mk "db/b" 90 2, FileInfo.mk "db/c" 50 3] =
      [FileInfo.mk "db/b" 90 2, FileInfo.mk "db/c" 50 3] := by
  refine ⟨by decide, by decide, by decide, ?_, ?_⟩
  · rw [(count_only_rule_spec (DeletionRules.mk true 0 2) 100
      [FileInfo.mk "db/a" 10 1, FileInfo.mk "db/b" 90 2, FileInfo.mk "db/c" 50 3]
      (by decide) (by decide) (by decide)).1]
    decide
  · rw [(count_only_rule_spec (DeletionRules.mk true 0 2) 100
      [FileInfo.mk "db/a" 10 1, FileInfo.mk "db/b" 90 2, FileInfo.mk "db/c" 50 3]
      (by decide) (by decide) (by decide)).2.1]
    decide

/-- C4: with only the age rule enabled (`maxAgeDays = D > 0`,
`maxCount ≤ 0`), a file of the group is in the deleted slice iff its
`createdAt` is strictly before `now - D`, and in the retained slice iff it
is at or after that cutoff. -/
theorem age_only_rule_spec (rules : DeletionRules) (now : Int) (files : List FileInfo)
    (ha : 0 < rules.maxAgeDays) (hc : rules.maxCount ≤ 0) (hnd : keysNodup files) :
    ∀ f ∈ files,
      (f ∈ filesToDeleteSlice rules now files ↔
        f.createdAt < cutoffTime now rules.maxAgeDays) ∧
      (f ∈ filesToRetainSlice rules now files ↔
        ¬f.createdAt < cutoffTime now rules.maxAgeDays) := by
  intro f hf
  rw [deleteSlice_age_only rules now files ha hc hnd,
    retainSlice_age_only rules now files ha hc hnd]
  constructor
  · rw [List.mem_filter]
    simp [mem_sortDesc, hf]
  · rw [List.mem_filter]
    simp [mem_sortDesc, hf]

/-- Witness for C4: `maxAgeDays = 30`, `now = 100` (cutoff 70): the file
created at 50 is deleted, the file created at 90 is retained. -/
theorem age_only_rule_spec_witness :
    (0 : Int) < 30 ∧ (0 : Int) ≤ 0 ∧
    keysNodup [FileInfo.mk "db/a" 90 1, FileInfo.mk "db/b" 50 2] ∧
    FileInfo.mk "db/b" 50 2 ∈ filesToDeleteSlice (DeletionRules.mk true 30 0) 100
      [FileInfo.mk "db/a" 90 1, FileInfo.mk "db/b" 50 2] ∧
    FileInfo.mk "db/a" 90 1 ∈ filesToRetainSlice (DeletionRules.mk true 30 0) 100
      [FileInfo.mk "db/a" 90 1, FileInfo.mk "db/b" 50 2] := by
  refine ⟨by decide, by decide, by decide, ?_, ?_⟩
  · exact ((age_only_rule_spec (DeletionRules.mk true 30 0) 100
      [FileInfo.mk "db/a" 90 1, FileInfo.mk "db/b" 50 2] (by decide) (by decide) (by decide)
      (FileInfo.mk "db/b" 50 2) (by decide)).1).mpr (by decide)
  · exact ((age_only_rule_spec (DeletionRules.mk true 30 0) 100
      [FileInfo.mk "db/a" 90 1, FileInfo.mk "db/b" 50 2] (by decide) (by decide) (by decide)
      (FileInfo.mk "db/a" 90 1) (by decide)).2).mpr (by decide)

/-- With at least one rule enabled, the two slices partition the group:
their concatenation is a permutation of the group and no file lies in
both. -/
theorem slices_partition (rules : DeletionRules) (now : Int) (files : List FileInfo)
    (hnd : keysNodup files) (hen : 0 < rules.maxAgeDays ∨ 0 < rules.maxCount) :
    (filesToDeleteSlice rules now files ++ filesToRetainSlice rules now files).Perm files ∧
    ∀ f : FileInfo, ¬(f ∈ filesToDeleteSlice rules now files ∧
      f ∈ filesToRetainSlice rules now files) := by
  by_cases hc : 0 < rules.maxCount
  · have hdel := deleteSlice_count rules now files hc hnd
    have hret := retainSlice_count rules now files hc hnd
    constructor
    · rw [hdel, hret]
      refine List.perm_append_comm.trans ?_
      rw [List.take_append_drop]
      exact sortDesc_perm files
    · rintro f ⟨h1, h2⟩
      rw [hdel] at h1
      rw [hret] at h2
      exact keyList_take_drop_disjoint (sortDesc files) rules.maxCount.toNat
        (keysNodup_sortDesc hnd) f.key (key_mem_keyList h2) (key_mem_keyList h1)
  · have ha : 0 < rules.maxAgeDays := hen.resolve_right hc
    have hc2 : rules.maxCount ≤ 0 := by omega
    have hdel := deleteSlice_age_only rules now files ha hc2 hnd
    have hret := retainSlice_age_only rules now files ha hc2 hnd
    constructor
    · rw [hdel, hret]
      have hcongr : ((sortDesc files).filter fun f =>
            decide (¬f.createdAt < cutoffTime now rules.maxAgeDays)) =
          ((sortDesc files).filter fun f =>
            !(decide (f.createdAt < cutoffTime now rules.maxAgeDays))) :=
        List.filter_congr fun f _ => by rw [decide_not]
      rw [hcongr]
      exact (List.filter_append_perm _ (sortDesc files)).trans (sortDesc_perm files)
    · rintro f ⟨h1, h2⟩
      rw [hdel, List.mem_filter, decide_eq_true_eq] at h1
      rw [hret, List.mem_filter, decide_eq_true_eq] at h2
      exact h2.2 h1.2

/-- C2 counterexample: with the policy enabled and both thresholds zero,
the single object of the group is classified neither Keep nor Delete — the
retain map, the delete map and the retained slice are all empty, refuting
both the all-Keep default and the partition invariant for such a group. -/
theorem no_rule_group_unclassified_cex :
    (DeletionRules.mk true 0 0).enabled = true ∧
    (classifyGroup (DeletionRules.mk true 0 0) 100 [FileInfo.mk "db/a" 50 1]).toRetain = ∅ ∧
    (classifyGroup (DeletionRules.mk true 0 0) 100 [FileInfo.mk "db/a" 50 1]).toDelete = ∅ ∧
    filesToRetainSlice (DeletionRules.mk true 0 0) 100 [FileInfo.mk "db/a" 50 1] = [] ∧
    (evalGroupStats (DeletionRules.mk true 0 0) 100 [FileInfo.mk "db/a" 50 1]).retainedFiles
      = 0 ∧
    (evalGroupStats (DeletionRules.mk true 0 0) 100 [FileInfo.mk "db/a" 50 1]).totalFiles
      = 1 := by
  decide

/-- C2 (amended): with the policy enabled, each group for which at least
one rule is enabled is partitioned by the classification (the two slices
concatenate to a permutation of the group, and no file is in both); when
neither rule is enabled both slices are empty — the objects stay
unclassified rather than defaulting to Keep — the group still contributes
its size to `totalFiles`, and the run invokes no delete call and reports
no error. -/
theorem classification_partition (rules : DeletionRules) (now : Int) (files : List FileInfo)
    (hnd : keysNodup files) (hen : rules.enabled = true) :
    (∀ d ∈ groupKeys files,
      ((0 < rules.maxAgeDays ∨ 0 < rules.maxCount) →
        (filesToDeleteSlice rules now (groupFiles files d) ++
          filesToRetainSlice rules now (groupFiles files d)).Perm (groupFiles files d) ∧
        ∀ f : FileInfo, ¬(f ∈ filesToDeleteSlice rules now (groupFiles files d) ∧
          f ∈ filesToRetainSlice rules now (groupFiles files d))) ∧
      (rules.maxAgeDays ≤ 0 → rules.maxCount ≤ 0 →
        filesToDeleteSlice rules now (groupFiles files d) = [] ∧
        filesToRetainSlice rules now (groupFiles files d) = [] ∧
        (evalGroupStats rules now (groupFiles files d)).totalFiles =
          (groupFiles files d).length)) ∧
    (rules.maxAgeDays ≤ 0 → rules.maxCount ≤ 0 → ∀ oracle : String → Bool,
      (execute rules now false oracle files).2.1 = [] ∧
      (execute rules now false oracle files).2.2 = none) := by
  constructor
  · intro d _
    refine ⟨fun hen2 =>
      slices_partition rules now (groupFiles files d)
        (keysNodup_groupFiles files d hnd) hen2, fun ha hc => ?_⟩
    obtain ⟨h1, h2⟩ := slices_none rules now (groupFiles files d) ha hc
    exact ⟨h1, h2, evalGroupStats_totalFiles rules now (groupFiles files d)⟩
  · intro ha hc oracle
    unfold execute
    rw [if_neg (by rw [hen]; simp)]
    by_cases h2 : files.length = 0
    · rw [if_pos h2]
      exact ⟨rfl, rfl⟩
    · rw [if_neg h2]
      rw [executeGroups_no_deletes rules now oracle (groupsOf files)
        (fun g _ => (slices_none rules now g ha hc).1) DeleteStats.zero]
      exact ⟨rfl, rfl⟩

/-- Witness for the amended C2: one group with two distinct keys, age rule
enabled only; the partition holds, and in the no-rule configuration the
same listing yields empty slices and no delete calls. -/
theorem classification_partition_witness :
    keysNodup [FileInfo.mk "db/a" 90 1, FileInfo.mk "db/b" 50 2] ∧
    (DeletionRules.mk true 30 0).enabled = true ∧
    ((filesToDeleteSlice (DeletionRules.mk true 30 0) 100
        (groupFiles [FileInfo.mk "db/a" 90 1, FileInfo.mk "db/b" 50 2] "db") ++
      filesToRetainSlice (DeletionRules.mk true 30 0) 100
        (groupFiles [FileInfo.mk "db/a" 90 1, FileInfo.mk "db/b" 50 2] "db")).Perm
      (groupFiles [FileInfo.mk "db/a" 90 1, FileInfo.mk "db/b" 50 2] "db")) ∧
    (DeletionRules.mk true 0 0).enabled = true ∧
    (execute (DeletionRules.mk true 0 0) 100 false (fun _ => true)
      [FileInfo.mk "db/a" 90 1, FileInfo.mk "db/b" 50 2]).2.1 = [] := by
  refine ⟨by decide, rfl, ?_, rfl, ?_⟩
  · exact (((classification_partition (DeletionRules.mk true 30 0) 100
      [FileInfo.mk "db/a" 90 1, FileInfo.mk "db/b" 50 2] (by decide) rfl).1 "db"
      (by decide)).1 (by decide)).1
  · exact ((classification_partition (DeletionRules.mk true 0 0) 100
      [FileInfo.mk "db/a" 90 1, FileInfo.mk "db/b" 50 2] (by decide) rfl).2
      (by decide) (by decide) (fun _ => true)).1

/-- C5: in live mode, the first failing delete call aborts the remaining
deletions of the entire run: the invoked call list ends at the failing key
(every earlier call succeeded, so the objects already deleted stay
deleted — the model has no compensating operation), the error is surfaced
as the failing key, and the returned stats are those accumulated over the
groups processed up to and including the failing one. -/
theorem delete_failure_fail_fast (rules : DeletionRules) (now : Int) (oracle : String → Bool)
    (files : List FileInfo) (e : String)
    (herr : (execute rules now false oracle files).2.2 = some e) :
    oracle e = false ∧
    (execute rules now false oracle files).2.1.getLast? = some e ∧
    (∀ k ∈ (execute rules now false oracle files).2.1.dropLast, oracle k = true) ∧
    ∃ p g q, groupsOf files = p ++ g :: q ∧
      (execute rules now false oracle files).1 = aggregateOver rules now (p ++ [g]) := by
  unfold execute at herr ⊢
  by_cases h1 : rules.enabled = false
  · rw [if_pos h1] at herr
    exact absurd herr (by simp)
  · rw [if_neg h1] at herr ⊢
    by_cases h2 : files.length = 0
    · rw [if_pos h2] at herr
      exact absurd herr (by simp)
    · rw [if_neg h2] at herr ⊢
      exact executeGroups_error rules now oracle (groupsOf files) DeleteStats.zero e herr

/-- Witness for C5: `maxCount = 1`, three files in one group; deleting
`db/b` succeeds and deleting `db/c` fails, so the run ends with the call
list `["db/b", "db/c"]` and error `db/c`. -/
theorem delete_failure_fail_fast_witness :
    (execute (DeletionRules.mk true 0 1) 100 false (fun k => k != "db/c")
        [FileInfo.mk "db/a" 90 1, FileInfo.mk "db/b" 50 2, FileInfo.mk "db/c" 10 3]).2.2 =
      some "db/c" ∧
    ((fun k : String => k != "db/c") "db/c" = false ∧
      (execute (DeletionRules.mk true 0 1) 100 false (fun k => k != "db/c")
          [FileInfo.mk "db/a" 90 1, FileInfo.mk "db/b" 50 2,
            FileInfo.mk "db/c" 10 3]).2.1.getLast? = some "db/c" ∧
      (∀ k ∈ (execute (DeletionRules.mk true 0 1) 100 false (fun k => k != "db/c")
          [FileInfo.mk "db/a" 90 1, FileInfo.mk "db/b" 50 2,
            FileInfo.mk "db/c" 10 3]).2.1.dropLast, (fun k : String => k != "db/c") k = true) ∧
      ∃ p g q,
        groupsOf [FileInfo.mk "db/a" 90 1, FileInfo.mk "db/b" 50 2,
          FileInfo.mk "db/c" 10 3] = p ++ g :: q ∧
        (execute (DeletionRules.mk true 0 1) 100 false (fun k => k != "db/c")
            [FileInfo.mk "db/a" 90 1, FileInfo.mk "db/b" 50 2,
              FileInfo.mk "db/c" 10 3]).1 =
          aggregateOver (DeletionRules.mk true 0 1) 100 (p ++ [g])) :=
  ⟨by decide,
    delete_failure_fail_fast (DeletionRules.mk true 0 1) 100 (fun k => k != "db/c")
      [FileInfo.mk "db/a" 90 1, FileInfo.mk "db/b" 50 2, FileInfo.mk "db/c" 10 3]
      "db/c" (by decide)⟩

/-! ### Order-invariance of the aggregate (determinism under Go's map
iteration order) -/

/-- Minimum with an explicit empty sentinel. -/
def optMin (o : Option Int) (v : Int) : Option Int :=
  match o with
  | none => some v
  | some a => some (min a v)

/-- Maximum with an explicit empty sentinel. -/
def optMax (o : Option Int) (v : Int) : Option Int :=
  match o with
  | none => some v
  | some a => some (max a v)

theorem optMin_rightComm (o : Option Int) (v w : Int) :
    optMin (optMin o v) w = optMin (optMin o w) v := by
  cases o with
  | none => simp [optMin, min_comm]
  | some a => simp [optMin, min_right_comm]

theorem optMax_rightComm (o : Option Int) (v w : Int) :
    optMax (optMax o v) w = optMax (optMax o w) v := by
  cases o with
  | none => simp [optMax, max_comm]
  | some a => simp [optMax, sup_right_comm]

theorem foldl_optMin_perm {l₁ l₂ : List Int} (h : l₁.Perm l₂) :
    ∀ o : Option Int, l₁.foldl optMin o = l₂.foldl optMin o := by
  induction h with
  | nil => intro o; rfl
  | cons x _ ih => intro o; rw [List.foldl_cons, List.foldl_cons, ih]
  | swap x y l =>
    intro o
    rw [List.foldl_cons, List.foldl_cons, List.foldl_cons, List.foldl_cons,
      optMin_rightComm]
  | trans _ _ ih1 ih2 => intro o; rw [ih1, ih2]

theorem foldl_optMax_perm {l₁ l₂ : List Int} (h : l₁.Perm l₂) :
    ∀ o : Option Int, l₁.foldl optMax o = l₂.foldl optMax o := by
  induction h with
  | nil => intro o; rfl
  | cons x _ ih => intro o; rw [List.foldl_cons, List.foldl_cons, ih]
  | swap x y l =>
    intro o
    rw [List.foldl_cons, List.foldl_cons, List.foldl_cons, List.foldl_cons,
      optMax_rightComm]
  | trans _ _ ih1 ih2 => intro o; rw [ih1, ih2]

theorem foldl_combineOld_eq_optMin (vs : List Int) :
    ∀ a : Int, 0 < a → (∀ v ∈ vs, 0 < v) →
      vs.foldl combineOld a = (vs.foldl optMin (some a)).getD 0 := by
  induction vs with
  | nil => intro a _ _; rfl
  | cons v rest ih =>
    intro a ha h
    rw [List.foldl_cons, List.foldl_cons, combineOld_of_pos a v ha]
    simp only [optMin]
    exact ih (min a v) (lt_min ha (h v (List.mem_cons_self v rest)))
      fun w hw => h w (List.mem_cons_of_mem v hw)

theorem foldl_combineNew_eq_optMax (vs : List Int) :
    ∀ a : Int, 0 < a → (∀ v ∈ vs, 0 < v) →
      vs.foldl combineNew a = (vs.foldl optMax (some a)).getD 0 := by
  induction vs with
  | nil => intro a _ _; rfl
  | cons v rest ih =>
    intro a ha h
    rw [List.foldl_cons, List.foldl_cons, combineNew_of_pos a v ha]
    simp only [optMax]
    exact ih (max a v) (lt_max_of_lt_left ha)
      fun w hw => h w (List.mem_cons_of_mem v hw)

theorem foldl_combineOld_zero_optMin (vs : List Int) (h : ∀ v ∈ vs, 0 < v) :
    vs.foldl combineOld 0 = (vs.foldl optMin none).getD 0 := by
  cases vs with
  | nil => rfl
  | cons v rest =>
    rw [List.foldl_cons, List.foldl_cons, combineOld_zero]
    simp only [optMin]
    exact foldl_combineOld_eq_optMin rest v (h v (List.mem_cons_self v rest))
      fun w hw => h w (List.mem_cons_of_mem v hw)

theorem foldl_combineNew_zero_optMax (vs : List Int) (h : ∀ v ∈ vs, 0 < v) :
    vs.foldl combineNew 0 = (vs.foldl optMax none).getD 0 := by
  cases vs with
  | nil => rfl
  | cons v rest =>
    rw [List.foldl_cons, List.foldl_cons, combineNew_zero]
    simp only [optMax]
    exact foldl_combineNew_eq_optMax rest v (h v (List.mem_cons_self v rest))
      fun w hw => h w (List.mem_cons_of_mem v hw)

theorem groupOlds_perm (rules : DeletionRules) (now : Int)
    {gs₁ gs₂ : List (List FileInfo)} (h : gs₁.Perm gs₂) :
    (groupOlds rules now gs₁).Perm (groupOlds rules now gs₂) :=
  (((h.map fun g => evalGroupStats rules now g).filter _).map _)

theorem groupNews_perm (rules : DeletionRules) (now : Int)
    {gs₁ gs₂ : List (List FileInfo)} (h : gs₁.Perm gs₂) :
    (groupNews rules now gs₁).Perm (groupNews rules now gs₂) :=
  (((h.map fun g => evalGroupStats rules now g).filter _).map _)

/-- Processing the groups in any order yields the same aggregate stats,
provided all retained timestamps are positive (the Go zero-time sentinel
is not a real timestamp). -/
theorem aggregateOver_perm (rules : DeletionRules) (now : Int)
    (gs₁ gs₂ : List (List FileInfo)) (h : gs₁.Perm gs₂)
    (hpos1 : ∀ v ∈ groupOlds rules now gs₁, 0 < v)
    (hpos2 : ∀ v ∈ groupNews rules now gs₁, 0 < v) :
    aggregateOver rules now gs₁ = aggregateOver rules now gs₂ := by
  have holds := groupOlds_perm rules now h
  have hnews := groupNews_perm rules now h
  have hpos1' : ∀ v ∈ groupOlds rules now gs₂, 0 < v :=
    fun v hv => hpos1 v (holds.mem_iff.mpr hv)
  have hpos2' : ∀ v ∈ groupNews rules now gs₂, 0 < v :=
    fun v hv => hpos2 v (hnews.mem_iff.mpr hv)
  obtain ⟨a1, a2, a3, a4, a5⟩ := statsFold_counters rules now gs₁ DeleteStats.zero
  obtain ⟨b1, b2, b3, b4, b5⟩ := statsFold_counters rules now gs₂ DeleteStats.zero
  have ho1 := statsFold_oldestRetained rules now gs₁ DeleteStats.zero
  have ho2 := statsFold_oldestRetained rules now gs₂ DeleteStats.zero
  have hn1 := statsFold_newestRetained rules now gs₁ DeleteStats.zero
  have hn2 := statsFold_newestRetained rules now gs₂ DeleteStats.zero
  unfold aggregateOver
  apply DeleteStats.ext
  · rw [a1, b1, (h.map fun g => (evalGroupStats rules now g).totalFiles).sum_eq]
  · rw [a2, b2, (h.map fun g => (evalGroupStats rules now g).deletedFiles).sum_eq]
  · rw [a3, b3, (h.map fun g => (evalGroupStats rules now g).retainedFiles).sum_eq]
  · rw [a4, b4, (h.map fun g => (evalGroupStats rules now g).deletedSize).sum_eq]
  · rw [a5, b5, (h.map fun g => (evalGroupStats rules now g).retainedSize).sum_eq]
  · rw [ho1, ho2]
    show (groupOlds rules now gs₁).foldl combineOld 0 =
      (groupOlds rules now gs₂).foldl combineOld 0
    rw [foldl_combineOld_zero_optMin _ hpos1, foldl_combineOld_zero_optMin _ hpos1',
      foldl_optMin_perm holds]
  · rw [hn1, hn2]
    show (groupNews rules now gs₁).foldl combineNew 0 =
      (groupNews rules now gs₂).foldl combineNew 0
    rw [foldl_combineNew_zero_optMax _ hpos2, foldl_combineNew_zero_optMax _ hpos2',
      foldl_optMax_perm hnews]

/-- C7: the evaluator is a pure function of the snapshot (same input, same
output), and its aggregate result does not depend on the order in which
the groups are processed — the one run-to-run degree of freedom in the
implementation (Go map iteration) — so two runs on the same snapshot yield
identical classification and stats. Requires positive timestamps so the
zero-time sentinel is unambiguous. -/
theorem evaluator_deterministic (rules : DeletionRules) (now : Int) (files : List FileInfo)
    (hpos : ∀ f ∈ files, 0 < f.createdAt) :
    evaluateListing rules now files = evaluateListing rules now files ∧
    (∀ d ∈ groupKeys files,
      classifyGroup rules now (groupFiles files d) =
        classifyGroup rules now (groupFiles files d)) ∧
    ∀ gs : List (List FileInfo), (groupsOf files).Perm gs →
      aggregateOver rules now gs = evaluateListing rules now files := by
  refine ⟨rfl, fun d _ => rfl, fun gs h => ?_⟩
  exact (aggregateOver_perm rules now (groupsOf files) gs h
    (groupOlds_pos rules now files hpos) (groupNews_pos rules now files hpos)).symm

/-- Witness for C7: two groups processed in the reversed order give the
same aggregate stats. -/
theorem evaluator_deterministic_witness :
    (∀ f ∈ [FileInfo.mk "a/x" 5 1, FileInfo.mk "b/y" 7 2], (0 : Int) < f.createdAt) ∧
    (groupsOf [FileInfo.mk "a/x" 5 1, FileInfo.mk "b/y" 7 2]).Perm
      [[FileInfo.mk "b/y" 7 2], [FileInfo.mk "a/x" 5 1]] ∧
    aggregateOver (DeletionRules.mk true 3 0) 100
        [[FileInfo.mk "b/y" 7 2], [FileInfo.mk "a/x" 5 1]] =
      evaluateListing (DeletionRules.mk true 3 0) 100
        [FileInfo.mk "a/x" 5 1, FileInfo.mk "b/y" 7 2] :=
  ⟨by decide, by decide,
    (evaluator_deterministic (DeletionRules.mk true 3 0) 100
      [FileInfo.mk "a/x" 5 1, FileInfo.mk "b/y" 7 2] (by decide)).2.2
      [[FileInfo.mk "b/y" 7 2], [FileInfo.mk "a/x" 5 1]] (by decide)⟩

/-! ### The retained files of the whole run -/

/-- All retained slices of the run, concatenated over the groups. -/
def allRetainedSlices (rules : DeletionRules) (now : Int) (files : List FileInfo) :
    List FileInfo :=
  ((groupsOf files).map fun g => filesToRetainSlice rules now g).flatten

theorem mem_allRetainedSlices (rules : DeletionRules) (now : Int) (files : List FileInfo)
    (f : FileInfo) :
    f ∈ allRetainedSlices rules now files ↔
      ∃ g ∈ groupsOf files, f ∈ filesToRetainSlice rules now g := by
  rw [allRetainedSlices, List.mem_flatten]
  constructor
  · rintro ⟨l, hl, hf⟩
    obtain ⟨g, hg, rfl⟩ := List.mem_map.mp hl
    exact ⟨g, hg, hf⟩
  · rintro ⟨g, hg, hf⟩
    exact ⟨filesToRetainSlice rules now g, List.mem_map_of_mem _ hg, hf⟩

theorem mem_groupOlds_iff (rules : DeletionRules) (now : Int) (gs : List (List FileInfo))
    (v : Int) :
    v ∈ groupOlds rules now gs ↔
      ∃ g ∈ gs, 0 < (evalGroupStats rules now g).retainedFiles ∧
        (evalGroupStats rules now g).oldestRetained = v := by
  rw [groupOlds, List.mem_map]
  constructor
  · rintro ⟨db, hdb, rfl⟩
    rw [List.mem_filter, decide_eq_true_eq] at hdb
    obtain ⟨g, hg, rfl⟩ := List.mem_map.mp hdb.1
    exact ⟨g, hg, hdb.2, rfl⟩
  · rintro ⟨g, hg, hpos, rfl⟩
    exact ⟨evalGroupStats rules now g,
      List.mem_filter.mpr ⟨List.mem_map_of_mem _ hg, by simpa using hpos⟩, rfl⟩

theorem mem_groupNews_iff (rules : DeletionRules) (now : Int) (gs : List (List FileInfo))
    (v : Int) :
    v ∈ groupNews rules now gs ↔
      ∃ g ∈ gs, 0 < (evalGroupStats rules now g).retainedFiles ∧
        (evalGroupStats rules now g).newestRetained = v := by
  rw [groupNews, List.mem_map]
  constructor
  · rintro ⟨db, hdb, rfl⟩
    rw [List.mem_filter, decide_eq_true_eq] at hdb
    obtain ⟨g, hg, rfl⟩ := List.mem_map.mp hdb.1
    exact ⟨g, hg, hdb.2, rfl⟩
  · rintro ⟨g, hg, hpos, rfl⟩
    exact ⟨evalGroupStats rules now g,
      List.mem_filter.mpr ⟨List.mem_map_of_mem _ hg, by simpa using hpos⟩, rfl⟩

theorem allRetained_nil_iff (rules : DeletionRules) (now : Int) (files : List FileInfo) :
    allRetainedSlices rules now files = [] ↔
      groupOlds rules now (groupsOf files) = [] := by
  constructor
  · intro hL
    rw [groupOlds, List.map_eq_nil_iff, List.filter_eq_nil_iff]
    intro db hdb
    obtain ⟨g, hg, rfl⟩ := List.mem_map.mp hdb
    have hgnil : filesToRetainSlice rules now g = [] := by
      apply List.flatten_eq_nil_iff.mp hL
      exact List.mem_map_of_mem _ hg
    simp [evalGroupStats_retainedFiles, hgnil]
  · intro hR
    rw [allRetainedSlices, List.flatten_eq_nil_iff]
    intro l hl
    obtain ⟨g, hg, rfl⟩ := List.mem_map.mp hl
    rw [groupOlds, List.map_eq_nil_iff, List.filter_eq_nil_iff] at hR
    have := hR (evalGroupStats rules now g) (List.mem_map_of_mem _ hg)
    rw [← List.length_eq_zero]
    simpa [evalGroupStats_retainedFiles] using this

theorem groupOlds_nil_iff_groupNews (rules : DeletionRules) (now : Int)
    (gs : List (List FileInfo)) :
    groupOlds rules now gs = [] ↔ groupNews rules now gs = [] := by
  rw [groupOlds, groupNews, List.map_eq_nil_iff, List.map_eq_nil_iff]

/-- C9: in each scope — per group and aggregate — the oldest/newest
retained fields are achieved by a Keep object and bound all Keep objects
of the scope (i.e. they are the min/max `createdAt` of the scope's Keep
set), and are the zero sentinel when the Keep set is empty; an empty input
listing yields all-zero stats, no delete calls and no error. Timestamps
are assumed positive so the zero-time sentinel is unambiguous. -/
theorem retained_stats_bounds (rules : DeletionRules) (now : Int) (files : List FileInfo)
    (hpos : ∀ f ∈ files, 0 < f.createdAt) :
    (∀ (dryRun : Bool) (oracle : String → Bool),
      execute rules now dryRun oracle [] = (DeleteStats.zero, [], none)) ∧
    (∀ d ∈ groupKeys files,
      (filesToRetainSlice rules now (groupFiles files d) = [] →
        (evalGroupStats rules now (groupFiles files d)).oldestRetained = 0 ∧
        (evalGroupStats rules now (groupFiles files d)).newestRetained = 0) ∧
      (filesToRetainSlice rules now (groupFiles files d) ≠ [] →
        (∃ f ∈ filesToRetainSlice rules now (groupFiles files d),
          (evalGroupStats rules now (groupFiles files d)).oldestRetained = f.createdAt) ∧
        (∃ f ∈ filesToRetainSlice rules now (groupFiles files d),
          (evalGroupStats rules now (groupFiles files d)).newestRetained = f.createdAt)) ∧
      (∀ f ∈ filesToRetainSlice rules now (groupFiles files d),
        (evalGroupStats rules now (groupFiles files d)).oldestRetained ≤ f.createdAt ∧
        f.createdAt ≤ (evalGroupStats rules now (groupFiles files d)).newestRetained)) ∧
    ((allRetainedSlices rules now files = [] →
      (evaluateListing rules now files).oldestRetained = 0 ∧
      (evaluateListing rules now files).newestRetained = 0) ∧
    (allRetainedSlices rules now files ≠ [] →
      (∃ f ∈ allRetainedSlices rules now files,
        (evaluateListing rules now files).oldestRetained = f.createdAt) ∧
      (∃ f ∈ allRetainedSlices rules now files,
        (evaluateListing rules now files).newestRetained = f.createdAt)) ∧
    (∀ f ∈ allRetainedSlices rules now files,
      (evaluateListing rules now files).oldestRetained ≤ f.createdAt ∧
      f.createdAt ≤ (evaluateListing rules now files).newestRetained)) := by
  have hQold : (evaluateListing rules now files).oldestRetained =
      (groupOlds rules now (groupsOf files)).foldl combineOld 0 :=
    statsFold_oldestRetained rules now (groupsOf files) DeleteStats.zero
  have hQnew : (evaluateListing rules now files).newestRetained =
      (groupNews rules now (groupsOf files)).foldl combineNew 0 :=
    statsFold_newestRetained rules now (groupsOf files) DeleteStats.zero
  have hOP := groupOlds_pos rules now files hpos
  have hNP := groupNews_pos rules now files hpos
  refine ⟨fun dryRun oracle => execute_empty rules now dryRun oracle,
    fun d _ => groupStats_time_bounds rules now (groupFiles files d), ?_, ?_, ?_⟩
  · intro hnil
    have h1 : groupOlds rules now (groupsOf files) = [] :=
      (allRetained_nil_iff rules now files).mp hnil
    have h2 : groupNews rules now (groupsOf files) = [] :=
      (groupOlds_nil_iff_groupNews rules now (groupsOf files)).mp h1
    constructor
    · rw [hQold, h1]; rfl
    · rw [hQnew, h2]; rfl
  · intro hne
    have h1 : groupOlds rules now (groupsOf files) ≠ [] :=
      fun hx => hne ((allRetained_nil_iff rules now files).mpr hx)
    have h2 : groupNews rules now (groupsOf files) ≠ [] :=
      fun hx => h1 ((groupOlds_nil_iff_groupNews rules now (groupsOf files)).mpr hx)
    obtain ⟨hmo, -⟩ := (foldl_combineOld_spec _ hOP).2 h1
    obtain ⟨hmn, -⟩ := (foldl_combineNew_spec _ hNP).2 h2
    obtain ⟨g, hg, hgpos, hgv⟩ := (mem_groupOlds_iff rules now (groupsOf files) _).mp hmo
    obtain ⟨g2, hg2, hg2pos, hg2v⟩ := (mem_groupNews_iff rules now (groupsOf files) _).mp hmn
    have hretne : filesToRetainSlice rules now g ≠ [] := by
      rw [evalGroupStats_retainedFiles] at hgpos
      intro hx; rw [hx] at hgpos; simp at hgpos
    have hretne2 : filesToRetainSlice rules now g2 ≠ [] := by
      rw [evalGroupStats_retainedFiles] at hg2pos
      intro hx; rw [hx] at hg2pos; simp at hg2pos
    obtain ⟨-, hex, -⟩ := groupStats_time_bounds rules now g
    obtain ⟨⟨f, hfm, hfo⟩, -⟩ := hex hretne
    obtain ⟨-, hex2, -⟩ := groupStats_time_bounds rules now g2
    obtain ⟨-, f2, hf2m, hf2o⟩ := hex2 hretne2
    constructor
    · exact ⟨f, (mem_allRetainedSlices rules now files f).mpr ⟨g, hg, hfm⟩,
        by rw [hQold, ← hgv, hfo]⟩
    · exact ⟨f2, (mem_allRetainedSlices rules now files f2).mpr ⟨g2, hg2, hf2m⟩,
        by rw [hQnew, ← hg2v, hf2o]⟩
  · intro f hf
    obtain ⟨g, hg, hfm⟩ := (mem_allRetainedSlices rules now files f).mp hf
    obtain ⟨-, -, hbnd⟩ := groupStats_time_bounds rules now g
    obtain ⟨hl, hr⟩ := hbnd f hfm
    have hgpos : 0 < (evalGroupStats rules now g).retainedFiles := by
      rw [evalGroupStats_retainedFiles]
      exact List.length_pos.mpr (List.ne_nil_of_mem hfm)
    have hmo : (evalGroupStats rules now g).oldestRetained ∈
        groupOlds rules now (groupsOf files) :=
      (mem_groupOlds_iff rules now (groupsOf files) _).mpr ⟨g, hg, hgpos, rfl⟩
    have hmn : (evalGroupStats rules now g).newestRetained ∈
        groupNews rules now (groupsOf files) :=
      (mem_groupNews_iff rules now (groupsOf files) _).mpr ⟨g, hg, hgpos, rfl⟩
    obtain ⟨-, hbo⟩ := (foldl_combineOld_spec _ hOP).2 (List.ne_nil_of_mem hmo)
    obtain ⟨-, hbn⟩ := (foldl_combineNew_spec _ hNP).2 (List.ne_nil_of_mem hmn)
    constructor
    · rw [hQold]
      exact le_trans (hbo _ hmo) hl
    · rw [hQnew]
      exact le_trans hr (hbn _ hmn)

/-- Witness for C9 on a two-group listing: the aggregate oldest-retained
value is achieved by a retained file and bounds every retained file. -/
theorem retained_stats_bounds_witness :
    (∀ f ∈ [FileInfo.mk "a/x" 5 1, FileInfo.mk "b/y" 7 2], (0 : Int) < f.createdAt) ∧
    execute (DeletionRules.mk true 3 0) 100 false (fun _ => true) [] =
      (DeleteStats.zero, [], none) ∧
    (∀ f ∈ allRetainedSlices (DeletionRules.mk true 3 0) 100
        [FileInfo.mk "a/x" 5 1, FileInfo.mk "b/y" 7 2],
      (evaluateListing (DeletionRules.mk true 3 0) 100
        [FileInfo.mk "a/x" 5 1, FileInfo.mk "b/y" 7 2]).oldestRetained ≤ f.createdAt ∧
      f.createdAt ≤ (evaluateListing (DeletionRules.mk true 3 0) 100
        [FileInfo.mk "a/x" 5 1, FileInfo.mk "b/y" 7 2]).newestRetained) := by
  have h := retained_stats_bounds (DeletionRules.mk true 3 0) 100
    [FileInfo.mk "a/x" 5 1, FileInfo.mk "b/y" 7 2] (by decide)
  exact ⟨by decide, h.1 false (fun _ => true), h.2.2.2.2⟩

/-- C10: the aggregate stats are the component-wise sums of the per-group
stats for `totalFiles`, `deletedFiles`, `retainedFiles`, `deletedSize` and
`retainedSize`, and the aggregate oldest/newest retained values are the
min/max of the per-group values over the groups with a non-empty retained
set (the zero sentinel when no group retained anything). Timestamps are
assumed positive so the zero-time sentinel is unambiguous. -/
theorem aggregate_is_sum_of_groups (rules : DeletionRules) (now : Int)
    (files : List FileInfo) (hpos : ∀ f ∈ files, 0 < f.createdAt) :
    ((evaluateListing rules now files).totalFiles =
      ((groupsOf files).map fun g => (evalGroupStats rules now g).totalFiles).sum ∧
    (evaluateListing rules now files).deletedFiles =
      ((groupsOf files).map fun g => (evalGroupStats rules now g).deletedFiles).sum ∧
    (evaluateListing rules now files).retainedFiles =
      ((groupsOf files).map fun g => (evalGroupStats rules now g).retainedFiles).sum ∧
    (evaluateListing rules now files).deletedSize =
      ((groupsOf files).map fun g => (evalGroupStats rules now g).deletedSize).sum ∧
    (evaluateListing rules now files).retainedSize =
      ((groupsOf files).map fun g => (evalGroupStats rules now g).retainedSize).sum) ∧
    ((groupOlds rules now (groupsOf files) = [] →
      (evaluateListing rules now files).oldestRetained = 0) ∧
    (groupOlds rules now (groupsOf files) ≠ [] →
      (evaluateListing rules now files).oldestRetained ∈ groupOlds rules now (groupsOf files) ∧
      ∀ v ∈ groupOlds rules now (groupsOf files),
        (evaluateListing rules now files).oldestRetained ≤ v)) ∧
    ((groupNews rules now (groupsOf files) = [] →
      (evaluateListing rules now files).newestRetained = 0) ∧
    (groupNews rules now (groupsOf files) ≠ [] →
      (evaluateListing rules now files).newestRetained ∈ groupNews rules now (groupsOf files) ∧
      ∀ v ∈ groupNews rules now (groupsOf files),
        v ≤ (evaluateListing rules now files).newestRetained)) := by
  obtain ⟨a1, a2, a3, a4, a5⟩ := statsFold_counters rules now (groupsOf files) DeleteStats.zero
  have hQold : (evaluateListing rules now files).oldestRetained =
      (groupOlds rules now (groupsOf files)).foldl combineOld 0 :=
    statsFold_oldestRetained rules now (groupsOf files) DeleteStats.zero
  have hQnew : (evaluateListing rules now files).newestRetained =
      (groupNews rules now (groupsOf files)).foldl combineNew 0 :=
    statsFold_newestRetained rules now (groupsOf files) DeleteStats.zero
  have hOP := groupOlds_pos rules now files hpos
  have hNP := groupNews_pos rules now files hpos
  refine ⟨⟨?_, ?_, ?_, ?_, ?_⟩, ⟨?_, ?_⟩, ⟨?_, ?_⟩⟩
  · simpa [DeleteStats.zero] using a1
  · simpa [DeleteStats.zero] using a2
  · simpa [DeleteStats.zero] using a3
  · simpa [DeleteStats.zero] using a4
  · simpa [DeleteStats.zero] using a5
  · intro h
    rw [hQold, h]
    rfl
  · intro h
    rw [hQold]
    exact (foldl_combineOld_spec _ hOP).2 h
  · intro h
    rw [hQnew, h]
    rfl
  · intro h
    rw [hQnew]
    exact (foldl_combineNew_spec _ hNP).2 h

/-- Witness for C10 on a two-group listing with the count rule enabled. -/
theorem aggregate_is_sum_of_groups_witness :
    (∀ f ∈ [FileInfo.mk "a/x" 5 1, FileInfo.mk "a/y" 9 4, FileInfo.mk "b/y" 7 2],
      (0 : Int) < f.createdAt) ∧
    (evaluateListing (DeletionRules.mk true 0 1) 100
        [FileInfo.mk "a/x" 5 1, FileInfo.mk "a/y" 9 4, FileInfo.mk "b/y" 7 2]).totalFiles =
      ((groupsOf [FileInfo.mk "a/x" 5 1, FileInfo.mk "a/y" 9 4, FileInfo.mk "b/y" 7 2]).map
        fun g => (evalGroupStats (DeletionRules.mk true 0 1) 100 g).totalFiles).sum ∧
    (evaluateListing (DeletionRules.mk true 0 1) 100
        [FileInfo.mk "a/x" 5 1, FileInfo.mk "a/y" 9 4, FileInfo.mk "b/y" 7 2]).deletedFiles =
      ((groupsOf [FileInfo.mk "a/x" 5 1, FileInfo.mk "a/y" 9 4, FileInfo.mk "b/y" 7 2]).map
        fun g => (evalGroupStats (DeletionRules.mk true 0 1) 100 g).deletedFiles).sum := by
  have h := aggregate_is_sum_of_groups (DeletionRules.mk true 0 1) 100
    [FileInfo.mk "a/x" 5 1, FileInfo.mk "a/y" 9 4, FileInfo.mk "b/y" 7 2] (by decide)
  exact ⟨by decide, h.1.1, h.1.2.1⟩

end GoBackup
